import Mathlib

/-!
ADS_set: a separate-chaining hash set.

A shallow embedding of `src/ADS_set.h` (`template <typename Key, size_t N = 7> class ADS_set`).

Modelling decisions.

* A bucket array `List* table` is a `List (List Key)`; the chain hanging off `table[i].head` is the
  `i`-th list, read from the head node to the tail node.  `table_size` and `current_size` are kept
  as separate fields, as in the source.
* An `Element*` is modelled by the sub-chain that starts at the node it points to; `nullptr` is the
  empty chain.  Dereferencing `nullptr` has no result (`Option.none`).
* `key_equal` is `std::equal_to<Key>` and is modelled by equality on `Key`; `hasher` is a function
  `Key → Nat`, so equal keys hash identically.
* The source compares sizes through `float` and `double` arithmetic (`float max_lf{0.7}`, the
  `double` literal `0.2`).  These three computations are parameters of the model (`Params.fits`,
  `Params.quot`, `Params.sparse`), constrained only by two facts that hold for the machine
  arithmetic.  Theorems stated for an arbitrary `Params` therefore hold whatever the rounding
  does.  `floatParams` instantiates the three computations with IEEE 754 arithmetic (binary32 for
  `float`, binary64 for `double`, round to nearest with ties to even, every operation rounded to
  its own format), carried out on natural numbers; theorems about the numbers `0.7` and `0.2`
  are stated for it.
* `size_t` is `Nat`.
-/

set_option linter.unusedSectionVars false

namespace ADS

/-- The template parameters `Key`, `N`, the hash function and the load-factor arithmetic of one
instantiation of `ADS_set`. -/
structure Params (Key : Type) where
  /-- The functor `hasher{}` (`std::hash<key_type>`). -/
  hasher : Key → Nat
  /-- The template parameter `N`, the minimum number of buckets. -/
  N : Nat
  /-- The test `table_size * max_lf >= n` of `reserve` (first argument `table_size`). -/
  fits : Nat → Nat → Bool
  /-- The value `size_type(current_size / max_lf)` of `rehash`. -/
  quot : Nat → Nat
  /-- The test `current_size < table_size * 0.2` of `erase` (first argument `current_size`). -/
  sparse : Nat → Nat → Bool
  /-- With `max_lf = 0.7`, a table twice as large as `n` passes the load test. -/
  fits_of_double : ∀ t n, 2 * n ≤ t → fits t n = true
  /-- The quotient `0 / max_lf` is `0`. -/
  quot_zero : quot 0 = 0

/-- The number of low bits to drop from `a` so that `p` significant bits are left: the least `s`
with `a < 2 ^ (p + s)`.  The first argument bounds the recursion; `roundBits` passes `a` itself,
which is never used up. -/
def excess (p : Nat) : Nat → Nat → Nat
  | 0, _ => 0
  | fuel + 1, a => if a < 2 ^ p then 0 else excess p fuel (a / 2) + 1

/-- Rounding to `p` significant bits, to nearest with ties to even (the IEEE 754 default mode),
of the real number `q + f`, where `f = 0` when `sticky` is false and `0 < f < 1` when it is true.
The callers scale their value by a power of two so that `q` has more than `p` bits whenever
`sticky` is true, which makes the result a natural number again.  The exponent range is not
modelled: the values of the source lie far inside the range of `float` and `double`. -/
def roundBits (p : Nat) (q : Nat) (sticky : Bool) : Nat :=
  let s := excess p q q
  if s = 0 then q
  else if 2 ^ (s - 1) < q % 2 ^ s ∨
      (q % 2 ^ s = 2 ^ (s - 1) ∧ (sticky = true ∨ q / 2 ^ s % 2 = 1))
    then (q / 2 ^ s + 1) * 2 ^ s
    else q / 2 ^ s * 2 ^ s

/-- The conversion of a `size_t` to `float`: binary32 has 24 significant bits. -/
def toFloat (n : Nat) : Nat := roundBits 24 n false

/-- The conversion of a `size_t` to `double`: binary64 has 53 significant bits. -/
def toDouble (n : Nat) : Nat := roundBits 53 n false

/-- The test `table_size * max_lf >= n` of `reserve` in binary32, `t` being `table_size`.  The
member `float max_lf{0.7}` holds `11744051 / 2^24`.  Both integers are converted to `float`; the
product `toFloat t * 11744051 / 2^24` is rounded to `float` and held here as a multiple of
`2^-25`, and so is the right-hand side. -/
def fitsF32 (t n : Nat) : Bool :=
  decide (toFloat n * 2 ^ 25 ≤ roundBits 24 (toFloat t * 11744051 * 2) false)

/-- The value `size_type(current_size / max_lf)` of `rehash` in binary32: the quotient
`toFloat c / (11744051 / 2^24)` is rounded to `float` (as a multiple of `2^-25`, the remainder of
the integer division being the sticky part) and truncated to an integer. -/
def quotF32 (c : Nat) : Nat :=
  roundBits 24 (toFloat c * 2 ^ 49 / 11744051) (decide (toFloat c * 2 ^ 49 % 11744051 ≠ 0))
    / 2 ^ 25

/-- The test `current_size < table_size * 0.2` of `erase` in binary64, `c` being `current_size`
and `t` being `table_size`.  The `double` literal `0.2` is `7205759403792794 / 2^55`; the product
is rounded to `double` and held as a multiple of `2^-56`. -/
def sparseF64 (c t : Nat) : Bool :=
  decide (toDouble c * 2 ^ 56 < roundBits 53 (toDouble t * 7205759403792794 * 2) false)

/-- The load-factor arithmetic of the source: `float` is binary32 and `double` is binary64. -/
def floatParams {Key : Type} (hasher : Key → Nat) (N : Nat) : Params Key where
  hasher := hasher
  N := N
  fits := fitsF32
  quot := quotF32
  sparse := sparseF64
  fits_of_double := by
    have low : ∀ fuel a : Nat, a ≤ fuel → 0 < excess 24 fuel a →
        2 ^ (23 + excess 24 fuel a) ≤ a := by
      intro fuel
      induction fuel with
      | zero =>
        intro a _ h0
        simp [excess] at h0
      | succ fuel ih =>
        intro a ha h0
        by_cases hlt : a < 2 ^ 24
        · rw [excess, if_pos hlt] at h0
          omega
        · rw [excess, if_neg hlt]
          by_cases hs : 0 < excess 24 fuel (a / 2)
          · have := ih (a / 2) (by omega) hs
            rw [← Nat.add_assoc, Nat.pow_succ]
            omega
          · have hs0 : excess 24 fuel (a / 2) = 0 := by omega
            rw [hs0]
            omega
    have bounds : ∀ q : Nat, roundBits 24 q false ≤ q + q / 2 ^ 23 ∧
        q ≤ roundBits 24 q false + q / 2 ^ 23 := by
      intro q
      have e2 := low q q (le_refl _)
      unfold roundBits
      simp only []
      generalize excess 24 q q = s at e2
      by_cases hs : s = 0
      · simp [hs]
      · simp only [hs, if_false]
        have hlow := e2 (by omega)
        have hpos : 0 < 2 ^ s := Nat.two_pow_pos _
        have hd : 2 ^ s ≤ q / 2 ^ 23 := by
          rw [Nat.le_div_iff_mul_le (Nat.two_pow_pos _), ← Nat.pow_add, Nat.add_comm]
          exact hlow
        have hm1 : q / 2 ^ s * 2 ^ s ≤ q := Nat.div_mul_le_self q (2 ^ s)
        have hm2 : q < (q / 2 ^ s + 1) * 2 ^ s := by
          rw [Nat.mul_comm]
          exact Nat.lt_mul_div_succ q hpos
        have hm3 : (q / 2 ^ s + 1) * 2 ^ s = q / 2 ^ s * 2 ^ s + 2 ^ s := by
          rw [Nat.add_mul, Nat.one_mul]
        split <;> omega
    intro t n h
    have b1 := bounds n
    have b2 := bounds t
    have b3 := bounds (toFloat t * 11744051 * 2)
    simp only [fitsF32, toFloat, decide_eq_true_eq] at *
    generalize roundBits 24 (roundBits 24 t false * 11744051 * 2) false = r at *
    generalize roundBits 24 t false = b at *
    generalize roundBits 24 n false = a at *
    norm_num at b1 b2 b3 ⊢
    omega
  quot_zero := by decide

/-- The data members of `ADS_set`: `table`, `table_size`, `current_size`. -/
structure ADS_set (Key : Type) where
  table : List (List Key)
  table_size : Nat
  current_size : Nat
deriving DecidableEq, Repr

/-- The data members of `ADS_set::Iterator`. -/
structure Iterator (Key : Type) where
  current : List Key
  table : List (List Key)
  position : Nat
  table_size : Nat
deriving DecidableEq, Repr

variable {Key : Type} [DecidableEq Key]

namespace ADS_set

/-- The object before a constructor body runs: `table{nullptr}`, `table_size{0}`,
`current_size{0}`. -/
def blank : ADS_set Key := ⟨[], 0, 0⟩

/-- The chain `table[i].head`. -/
def bucket (s : ADS_set Key) (i : Nat) : List Key := s.table.getD i []

/-- The member `hash`: `hasher{}(key) % table_size`. -/
def hash (P : Params Key) (s : ADS_set Key) (key : Key) : Nat := P.hasher key % s.table_size

/-- The `for` loop of `locate`: the first node of the chain whose key equals `key`. -/
def locateChain (key : Key) : List Key → List Key
  | [] => []
  | e :: rest => if e = key then e :: rest else locateChain key rest

/-- The member `locate`. -/
def locate (P : Params Key) (s : ADS_set Key) (key : Key) : List Key :=
  let idx := hash P s key
  if bucket s idx = [] then [] else locateChain key (bucket s idx)

/-- The member `add`. -/
def add (P : Params Key) (s : ADS_set Key) (key : Key) : ADS_set Key :=
  if locate P s key ≠ [] then s
  else
    let idx := hash P s key
    { s with table := s.table.set idx (key :: bucket s idx), current_size := s.current_size + 1 }

/-- The loop `while(new_table_size * max_lf < n) ++(new_table_size *= 4);` of `reserve`: each round
replaces `new_table_size` by `4 * new_table_size + 1`.  The loop test is the negation of
`Params.fits`.  The first argument bounds the number of rounds; `reserve` passes `2 * n`, which is
never used up (`growLoop_fits`). -/
def growLoop (P : Params Key) (n : Nat) : Nat → Nat → Nat
  | 0, new_table_size => new_table_size
  | fuel + 1, new_table_size =>
    if P.fits new_table_size n then new_table_size
    else growLoop P n fuel (new_table_size * 4 + 1)

/-- The member `rehash`. -/
def rehash (P : Params Key) (s : ADS_set Key) (n : Nat) : ADS_set Key :=
  let new_table_size := max P.N (max n (P.quot s.current_size))
  let fresh : ADS_set Key := ⟨List.replicate new_table_size [], new_table_size, 0⟩
  (List.range s.table_size).foldl (fun acc idx => (bucket s idx).foldl (add P) acc) fresh

/-- The member `reserve`. -/
def reserve (P : Params Key) (s : ADS_set Key) (n : Nat) : ADS_set Key :=
  if P.fits s.table_size n then s
  else rehash P s (growLoop P n (2 * n) s.table_size)

/-- The default constructor `ADS_set() { rehash(N); }`. -/
def ctor (P : Params Key) : ADS_set Key := rehash P blank P.N

/-- The member `size`. -/
def size (s : ADS_set Key) : Nat := s.current_size

/-- The member `empty`. -/
def empty (s : ADS_set Key) : Bool := decide (s.current_size = 0)

/-- The member `count`: `locate(key) != nullptr` converted to `size_type`. -/
def count (P : Params Key) (s : ADS_set Key) (key : Key) : Nat :=
  if locate P s key ≠ [] then 1 else 0

end ADS_set

namespace Iterator

/-- The value-initialised iterator `Iterator()`: null `current`, null `table`, position `0`,
`table_size = N`. -/
def nil (P : Params Key) : Iterator Key := ⟨[], [], 0, P.N⟩

/-- The loop of `skip`, run from `position`; the first argument is `table_size - position`, the
number of buckets left. -/
def skipLoop (table : List (List Key)) (table_size : Nat) : Nat → Nat → Nat
  | 0, position => position
  | fuel + 1, position =>
    if position < table_size ∧ table.getD position [] = [] then
      skipLoop table table_size fuel (position + 1)
    else position

/-- The member `skip`. -/
def skip (it : Iterator Key) : Iterator Key :=
  { it with position := skipLoop it.table it.table_size (it.table_size - it.position) it.position }

/-- The member `operator*`: `current->key`. -/
def deref (it : Iterator Key) : Option Key := it.current.head?

/-- The member `operator++` (prefix).  On a null `current` the source dereferences `nullptr`. -/
def next (it : Iterator Key) : Option (Iterator Key) :=
  match it.current with
  | [] => none
  | _ :: rest =>
    if rest ≠ [] then some { it with current := rest }
    else
      let it1 := skip { it with position := it.position + 1 }
      if it1.position = it1.table_size then some { it1 with current := [] }
      else some { it1 with current := it1.table.getD it1.position [] }

/-- The friend `operator==` of iterators: `lhs.current == rhs.current`. -/
def eq (lhs rhs : Iterator Key) : Bool := decide (lhs.current = rhs.current)

/-- Applying `operator++` `n` times. -/
def advance : Nat → Iterator Key → Option (Iterator Key)
  | 0, it => some it
  | n + 1, it => (next it).bind (advance n)

/-- The keys visited by `for (; it != end(); ++it)`, at most `fuel` of them. -/
def traverse : Nat → Iterator Key → List Key
  | 0, _ => []
  | fuel + 1, it =>
    match it.current with
    | [] => []
    | k :: _ =>
      match next it with
      | some it1 => k :: traverse fuel it1
      | none => [k]

end Iterator

namespace ADS_set

/-- The member `end`. -/
def end_ (P : Params Key) (_s : ADS_set Key) : Iterator Key := Iterator.nil P

/-- The `for` loop of `begin` from index `i`; the first argument is `table_size - i`, the number
of indices left. -/
def beginLoop (P : Params Key) (s : ADS_set Key) : Nat → Nat → Iterator Key
  | 0, _ => end_ P s
  | left + 1, i =>
    if bucket s i ≠ [] then ⟨bucket s i, s.table, i, s.table_size⟩
    else beginLoop P s left (i + 1)

/-- The member `begin`. -/
def begin (P : Params Key) (s : ADS_set Key) : Iterator Key := beginLoop P s s.table_size 0

/-- The member `find`. -/
def find (P : Params Key) (s : ADS_set Key) (key : Key) : Iterator Key :=
  if locate P s key ≠ [] then ⟨locate P s key, s.table, hash P s key, s.table_size⟩
  else end_ P s

/-- The number of nodes in the buckets `0 .. table_size - 1`. -/
def nodes (s : ADS_set Key) : Nat :=
  ((List.range s.table_size).map (fun i => (bucket s i).length)).sum

/-- The keys a range-based `for (const auto &k : s)` visits, in order: the traversal from
`begin()` to `end()`, bounded by the number of nodes (`toList_eq` shows the bound is enough). -/
def toList (P : Params Key) (s : ADS_set Key) : List Key :=
  Iterator.traverse (nodes s) (begin P s)

/-- The overload `insert(const key_type &key)`: the new object state, the returned iterator and the
returned flag. -/
def insert (P : Params Key) (s : ADS_set Key) (key : Key) : ADS_set Key × Iterator Key × Bool :=
  if locate P s key ≠ [] then
    (s, ⟨locate P s key, s.table, hash P s key, s.table_size⟩, false)
  else
    let s1 := reserve P s (s.current_size + 1)
    let s2 := add P s1 key
    (s2, ⟨locate P s2 key, s2.table, hash P s2 key, s2.table_size⟩, true)

/-- The overload `insert(std::initializer_list<key_type> ilist)`: `add` for every element. -/
def insertIlist (P : Params Key) (s : ADS_set Key) (ilist : List Key) : ADS_set Key :=
  ilist.foldl (add P) s

/-- The overload `insert(InputIt first, InputIt last)`, the range given as the list of its
elements. -/
def insertRange (P : Params Key) (s : ADS_set Key) (range : List Key) : ADS_set Key :=
  range.foldl
    (fun acc k => if locate P acc k = [] then add P (reserve P acc (acc.current_size + 1)) k else acc)
    s

/-- The constructor `ADS_set(std::initializer_list<key_type> ilist)`. -/
def ctorIlist (P : Params Key) (ilist : List Key) : ADS_set Key := insertIlist P (ctor P) ilist

/-- The constructor `ADS_set(InputIt first, InputIt last)`. -/
def ctorRange (P : Params Key) (range : List Key) : ADS_set Key := insertRange P (ctor P) range

/-- The copy constructor: `rehash(other.table_size)` on the blank object, then `add` for every key
of `other`. -/
def copy (P : Params Key) (other : ADS_set Key) : ADS_set Key :=
  (toList P other).foldl (add P) (rehash P blank other.table_size)

/-- The member `clear`: swap with a default-constructed set. -/
def clear (P : Params Key) (_s : ADS_set Key) : ADS_set Key := ctor P

/-- The copy assignment `operator=(const ADS_set &other)`: swap with a copy of `other`. -/
def assign (P : Params Key) (_s other : ADS_set Key) : ADS_set Key := copy P other

/-- The assignment `operator=(std::initializer_list<key_type> ilist)`. -/
def assignIlist (P : Params Key) (_s : ADS_set Key) (ilist : List Key) : ADS_set Key :=
  ctorIlist P ilist

/-- The member `swap`: the pair of objects after the exchange. -/
def swap (s other : ADS_set Key) : ADS_set Key × ADS_set Key := (other, s)

/-- The `while(head)` loop of the `else` branch of `erase`, started with `head` at the first node
of the given chain; the result is the chain after the unlinking.  `none` is the dereference
`head->key` of a null `head`. -/
def unlinkAfter (key : Key) : List Key → Option (List Key)
  | [] => some []
  | [_] => none
  | help :: head :: rest =>
    if head = key then some (help :: rest)
    else (unlinkAfter key (head :: rest)).map (fun chain => help :: chain)

/-- The same `while(head)` loop as `unlinkAfter` with a bound on the number of rounds: the outer
`none` means that the rounds were used up before the loop ended, the inner `none` is the
dereference of a null `head`. -/
def unlinkRounds (key : Key) : Nat → List Key → Option (Option (List Key))
  | _, [] => some (some [])
  | 0, _ :: _ => none
  | _ + 1, [_] => some none
  | rounds + 1, help :: head :: rest =>
    if head = key then some (some (help :: rest))
    else (unlinkRounds key rounds (head :: rest)).map (Option.map (fun chain => help :: chain))

/-- The member `erase`: the new object state and the returned number.  `none` is a dereference of
`nullptr`. -/
def erase (P : Params Key) (s : ADS_set Key) (key : Key) : Option (ADS_set Key × Nat) :=
  if count P s key ≠ 0 then
    let idx := hash P s key
    match bucket s idx with
    | [] => none
    | head :: rest =>
      let unlinked := if head = key then some rest else unlinkAfter key (head :: rest)
      unlinked.map fun chain =>
        let s1 : ADS_set Key :=
          { s with table := s.table.set idx chain, current_size := s.current_size - 1 }
        (if P.sparse s1.current_size s1.table_size then rehash P s1 s1.current_size else s1, 1)
  else some (s, 0)

/-- The friend `operator==` of sets. -/
def equal (P : Params Key) (lhs rhs : ADS_set Key) : Bool :=
  if lhs.current_size ≠ rhs.current_size then false
  else (toList P lhs).all (fun k => decide (count P rhs k ≠ 0))

/-- The friend `operator!=` of sets. -/
def notEqual (P : Params Key) (lhs rhs : ADS_set Key) : Bool := !(equal P lhs rhs)

end ADS_set

open ADS_set

/-- The object states a program can produce: a constructor followed by public member calls. -/
inductive Reachable (P : Params Key) : ADS_set Key → Prop
  | ctor : Reachable P (ctor P)
  | ctorIlist (ilist : List Key) : Reachable P (ctorIlist P ilist)
  | ctorRange (range : List Key) : Reachable P (ctorRange P range)
  | copy {s : ADS_set Key} : Reachable P s → Reachable P (copy P s)
  | insert {s : ADS_set Key} (key : Key) : Reachable P s → Reachable P (insert P s key).1
  | insertIlist {s : ADS_set Key} (ilist : List Key) :
      Reachable P s → Reachable P (insertIlist P s ilist)
  | insertRange {s : ADS_set Key} (range : List Key) :
      Reachable P s → Reachable P (insertRange P s range)
  | erase {s s1 : ADS_set Key} (key : Key) (r : Nat) :
      Reachable P s → erase P s key = some (s1, r) → Reachable P s1
  | clear {s : ADS_set Key} : Reachable P s → Reachable P (clear P s)
  | assign {s other : ADS_set Key} :
      Reachable P s → Reachable P other → Reachable P (assign P s other)
  | assignIlist {s : ADS_set Key} (ilist : List Key) :
      Reachable P s → Reachable P (assignIlist P s ilist)
  | swapLeft {s other : ADS_set Key} :
      Reachable P s → Reachable P other → Reachable P (swap s other).1
  | swapRight {s other : ADS_set Key} :
      Reachable P s → Reachable P other → Reachable P (swap s other).2

/-- The example hash: `std::hash` of an unsigned integer is the identity. -/
def natParams : Params Nat := floatParams (fun k => k) 7

/-! ## Predicates used in the proofs -/

/-- The representation invariant of a set object. -/
structure Inv (P : Params Key) (s : ADS_set Key) : Prop where
  /-- The array `table` has `table_size` buckets. -/
  len : s.table.length = s.table_size
  /-- The table is never smaller than `N`. -/
  min : P.N ≤ s.table_size
  /-- There is at least one bucket. -/
  pos : 0 < s.table_size
  /-- Every key sits in the bucket its hash selects. -/
  home : ∀ i k, k ∈ bucket s i → hash P s k = i
  /-- No chain holds a key twice. -/
  nodup : ∀ i, (bucket s i).Nodup
  /-- The counter `current_size` is the number of nodes. -/
  card : s.current_size = (s.table.map List.length).sum

/-- The object after the node holding `key` has been unlinked and `current_size` decremented,
before the shrink test of `erase`. -/
def unlinked (P : Params Key) (s : ADS_set Key) (key : Key) : ADS_set Key :=
  { s with
    table := s.table.set (hash P s key) ((bucket s (hash P s key)).erase key),
    current_size := s.current_size - 1 }

/-- The iterator `it` over the bucket array `T` has exactly the keys `r` still to visit. -/
def Pos (T : List (List Key)) (it : Iterator Key) (r : List Key) : Prop :=
  (r = [] ∧ it.current = []) ∨
  (it.table = T ∧ it.table_size = T.length ∧ it.current ≠ [] ∧ it.position < T.length ∧
    r = it.current ++ (T.drop (it.position + 1)).flatten)

/-- Inserting the elements of a list one by one, with `insert(const key_type &)`, into a
default-constructed set. -/
def insertAll (P : Params Key) (l : List Key) : ADS_set Key :=
  l.foldl (fun acc k => (insert P acc k).1) (ctor P)

/-! ## Chains -/

section Chains

theorem locateChain_eq_nil_iff (key : Key) (c : List Key) :
    locateChain key c = [] ↔ key ∉ c := by
  induction c with
  | nil => simp [locateChain]
  | cons e rest ih =>
    by_cases h : e = key
    · simp [locateChain, h]
    · simp [locateChain, h, ih, Ne.symm h]

theorem locateChain_suffix (key : Key) (c : List Key) :
    ∃ pre, c = pre ++ locateChain key c ∧ key ∉ pre := by
  induction c with
  | nil => exact ⟨[], by simp [locateChain]⟩
  | cons e rest ih =>
    by_cases h : e = key
    · exact ⟨[], by simp [locateChain, h]⟩
    · obtain ⟨pre, hpre, hnot⟩ := ih
      refine ⟨e :: pre, ?_, ?_⟩
      · simp only [locateChain, h, if_false, List.cons_append]
        exact congrArg _ hpre
      · simp [Ne.symm h, hnot]

theorem locateChain_head (key : Key) (c : List Key) (h : key ∈ c) :
    (locateChain key c).head? = some key := by
  induction c with
  | nil => simp at h
  | cons e rest ih =>
    by_cases he : e = key
    · simp [locateChain, he]
    · have : key ∈ rest := by
        rcases List.mem_cons.1 h with h1 | h1
        · exact absurd h1.symm he
        · exact h1
      simp [locateChain, he, ih this]

theorem getD_set_nil (l : List (List Key)) (i j : Nat) (c : List Key) :
    (l.set i c).getD j [] = if i = j ∧ i < l.length then c else l.getD j [] := by
  simp only [List.getD_eq_getElem?_getD, List.getElem?_set]
  by_cases hij : i = j
  · subst hij
    by_cases hi : i < l.length
    · simp [hi]
    · simp [hi, List.getElem?_eq_none (Nat.le_of_not_lt hi)]
  · simp [hij]

theorem sum_length_set (l : List (List Key)) (i : Nat) (c : List Key) (h : i < l.length) :
    ((l.set i c).map List.length).sum + (l.getD i []).length
      = (l.map List.length).sum + c.length := by
  induction l generalizing i with
  | nil => simp at h
  | cons a rest ih =>
    cases i with
    | zero => simp; omega
    | succ i =>
      have := ih i (by simpa using h)
      simp only [List.set_cons_succ, List.map_cons, List.sum_cons, List.getD_cons_succ]
      omega

theorem getD_replicate_nil (m i : Nat) :
    (List.replicate m ([] : List Key)).getD i [] = [] := by
  simp only [List.getD_eq_getElem?_getD, List.getElem?_replicate]
  split <;> rfl

theorem foldl_flatten_chains {σ : Type} (f : σ → Key → σ) (L : List (List Key)) (a : σ) :
    L.foldl (fun acc c => c.foldl f acc) a = L.flatten.foldl f a := by
  induction L generalizing a with
  | nil => rfl
  | cons c rest ih => simp [List.foldl_append, ih]

theorem map_getD_range (l : List (List Key)) :
    (List.range l.length).map (fun i => l.getD i []) = l := by
  apply List.ext_getElem
  · simp
  · intro n h1 h2
    simp [List.getD_eq_getElem?_getD, List.getElem?_eq_getElem h2]

end Chains

/-! ## The representation invariant -/

section Basics

variable (P : Params Key)

theorem hash_lt {s : ADS_set Key} (h : 0 < s.table_size) (key : Key) :
    hash P s key < s.table_size := Nat.mod_lt _ h

theorem locate_eq_nil_iff (s : ADS_set Key) (key : Key) :
    locate P s key = [] ↔ key ∉ bucket s (hash P s key) := by
  unfold locate
  by_cases h : bucket s (hash P s key) = []
  · simp [h]
  · simp only [h, if_false]
    exact locateChain_eq_nil_iff key _

theorem locate_eq_locateChain (s : ADS_set Key) (key : Key) :
    locate P s key = locateChain key (bucket s (hash P s key)) := by
  unfold locate
  by_cases h : bucket s (hash P s key) = []
  · simp [h, locateChain]
  · simp [h]

theorem count_eq_one_iff (s : ADS_set Key) (key : Key) :
    count P s key = 1 ↔ key ∈ bucket s (hash P s key) := by
  unfold count
  by_cases h : locate P s key = []
  · simp [h, (locate_eq_nil_iff P s key).1 h]
  · have : key ∈ bucket s (hash P s key) := by
      by_contra hc
      exact h ((locate_eq_nil_iff P s key).2 hc)
    simp [h, this]

theorem count_eq_zero_iff (s : ADS_set Key) (key : Key) :
    count P s key = 0 ↔ key ∉ bucket s (hash P s key) := by
  unfold count
  by_cases h : locate P s key = []
  · simp [h, (locate_eq_nil_iff P s key).1 h]
  · have : key ∈ bucket s (hash P s key) := by
      by_contra hc
      exact h ((locate_eq_nil_iff P s key).2 hc)
    simp [h, this]

theorem count_le_one (s : ADS_set Key) (key : Key) : count P s key = 0 ∨ count P s key = 1 := by
  unfold count
  split <;> simp

theorem count_congr {a b : ADS_set Key} (key : Key)
    (h : key ∈ bucket a (hash P a key) ↔ key ∈ bucket b (hash P b key)) :
    count P a key = count P b key := by
  rcases count_le_one P a key with ha | ha
  · rw [ha]
    have := (count_eq_zero_iff P a key).1 ha
    exact ((count_eq_zero_iff P b key).2 (fun hb => this (h.2 hb))).symm
  · rw [ha]
    have := (count_eq_one_iff P a key).1 ha
    exact ((count_eq_one_iff P b key).2 (h.1 this)).symm

theorem bucket_set (s : ADS_set Key) (i j n : Nat) (c : List Key) :
    bucket { s with table := s.table.set i c, current_size := n } j
      = if i = j ∧ i < s.table.length then c else bucket s j := by
  simp only [bucket]
  exact getD_set_nil s.table i j c

/-- Under the invariant, the keys of the set are the keys found in some bucket. -/
theorem mem_flatten_iff {s : ADS_set Key} (hs : Inv P s) (key : Key) :
    key ∈ s.table.flatten ↔ count P s key = 1 := by
  rw [count_eq_one_iff, List.mem_flatten]
  constructor
  · rintro ⟨c, hc, hk⟩
    obtain ⟨i, hi, rfl⟩ := List.getElem_of_mem hc
    have hb : bucket s i = s.table[i] := by
      simp [bucket, List.getD_eq_getElem?_getD, List.getElem?_eq_getElem hi]
    have := hs.home i key (by rw [hb]; exact hk)
    rw [this, hb]
    exact hk
  · intro hk
    have hlt : hash P s key < s.table.length := by
      rw [hs.len]
      exact hash_lt P hs.pos key
    refine ⟨s.table[hash P s key], List.getElem_mem _, ?_⟩
    have hb : bucket s (hash P s key) = s.table[hash P s key] := by
      simp [bucket, List.getD_eq_getElem?_getD, List.getElem?_eq_getElem hlt]
    rw [← hb]
    exact hk

theorem nodup_flatten {s : ADS_set Key} (hs : Inv P s) : s.table.flatten.Nodup := by
  rw [List.nodup_flatten]
  constructor
  · intro c hc
    obtain ⟨i, hi, rfl⟩ := List.getElem_of_mem hc
    have hb : bucket s i = s.table[i] := by
      simp [bucket, List.getD_eq_getElem?_getD, List.getElem?_eq_getElem hi]
    rw [← hb]
    exact hs.nodup i
  · rw [List.pairwise_iff_getElem]
    intro i j hi hj hij
    have hbi : bucket s i = s.table[i] := by
      simp [bucket, List.getD_eq_getElem?_getD, List.getElem?_eq_getElem hi]
    have hbj : bucket s j = s.table[j] := by
      simp [bucket, List.getD_eq_getElem?_getD, List.getElem?_eq_getElem hj]
    intro k hk1 hk2
    have h1 := hs.home i k (by rw [hbi]; exact hk1)
    have h2 := hs.home j k (by rw [hbj]; exact hk2)
    omega

theorem length_flatten_eq {s : ADS_set Key} (hs : Inv P s) :
    s.table.flatten.length = s.current_size := by
  rw [List.length_flatten, hs.card]

/-- Two well-formed sets with the same keys have the same number of elements. -/
theorem card_eq_of_count_eq {a b : ADS_set Key} (ha : Inv P a) (hb : Inv P b)
    (h : ∀ k, count P a k = count P b k) : a.current_size = b.current_size := by
  rw [← length_flatten_eq P ha, ← length_flatten_eq P hb]
  apply List.Perm.length_eq
  rw [List.perm_ext_iff_of_nodup (nodup_flatten P ha) (nodup_flatten P hb)]
  intro k
  rw [mem_flatten_iff P ha, mem_flatten_iff P hb, h k]

end Basics

/-! ## `add`, `rehash`, `reserve` -/

section AddRehash

variable (P : Params Key)

theorem add_table_size (s : ADS_set Key) (key : Key) :
    (add P s key).table_size = s.table_size := by
  unfold add
  split <;> rfl

theorem hash_add (s : ADS_set Key) (key j : Key) : hash P (add P s key) j = hash P s j := by
  simp [ADS_set.hash, add_table_size]

theorem add_of_absent {s : ADS_set Key} {key : Key} (h : locate P s key = []) :
    add P s key = { s with
      table := s.table.set (hash P s key) (key :: bucket s (hash P s key)),
      current_size := s.current_size + 1 } := by
  simp [add, h]

theorem add_of_present {s : ADS_set Key} {key : Key} (h : locate P s key ≠ []) :
    add P s key = s := by
  simp [add, h]

theorem bucket_add {s : ADS_set Key} (hs : Inv P s) (key : Key) (i : Nat) :
    bucket (add P s key) i
      = if key ∉ bucket s (hash P s key) ∧ i = hash P s key then key :: bucket s i
        else bucket s i := by
  by_cases h : locate P s key = []
  · have hk := (locate_eq_nil_iff P s key).1 h
    have hlt : hash P s key < s.table.length := by
      rw [hs.len]
      exact hash_lt P hs.pos key
    rw [add_of_absent P h, bucket_set]
    by_cases hi : i = hash P s key
    · subst hi
      simp only [hlt, and_self, if_true, hk, not_false_eq_true]
    · simp only [hi, Ne.symm hi, false_and, and_false, if_false]
  · have hk : key ∈ bucket s (hash P s key) := by
      by_contra hc
      exact h ((locate_eq_nil_iff P s key).2 hc)
    rw [add_of_present P h]
    simp [hk]

theorem add_inv {s : ADS_set Key} (hs : Inv P s) (key : Key) : Inv P (add P s key) := by
  have hb := bucket_add P hs key
  by_cases h : locate P s key = []
  · have hk := (locate_eq_nil_iff P s key).1 h
    have hlt : hash P s key < s.table.length := by
      rw [hs.len]
      exact hash_lt P hs.pos key
    have hadd := add_of_absent P h
    refine ⟨?_, ?_, ?_, ?_, ?_, ?_⟩
    · rw [hadd]
      simp [hs.len]
    · rw [add_table_size]
      exact hs.min
    · rw [add_table_size]
      exact hs.pos
    · intro i k hk1
      rw [hash_add]
      rw [hb] at hk1
      by_cases hi : i = hash P s key
      · simp only [hk, not_false_eq_true, hi, and_self, if_true, List.mem_cons] at hk1
        rcases hk1 with rfl | hk1
        · exact hi.symm
        · rw [hi]
          exact hs.home _ _ hk1
      · simp only [hi, and_false, if_false] at hk1
        exact hs.home _ _ hk1
    · intro i
      rw [hb]
      by_cases hi : i = hash P s key
      · subst hi
        simp only [hk, not_false_eq_true, and_self, if_true]
        exact List.nodup_cons.2 ⟨hk, hs.nodup _⟩
      · simp only [hi, and_false, if_false]
        exact hs.nodup _
    · rw [hadd]
      have := sum_length_set s.table (hash P s key) (key :: bucket s (hash P s key)) hlt
      simp only [bucket, List.length_cons] at this ⊢
      have hc := hs.card
      omega
  · rw [add_of_present P h]
    exact hs

theorem count_add {s : ADS_set Key} (hs : Inv P s) (key j : Key) :
    count P (add P s key) j = if j = key then 1 else count P s j := by
  by_cases hj : j = key
  · subst hj
    simp only [if_true]
    rw [count_eq_one_iff, hash_add, bucket_add P hs]
    by_cases hk : j ∈ bucket s (hash P s j)
    · simp [hk]
    · simp [hk]
  · simp only [hj, if_false]
    apply count_congr
    rw [hash_add, bucket_add P hs]
    by_cases hc : key ∉ bucket s (hash P s key) ∧ hash P s j = hash P s key
    · simp only [hc, not_false_eq_true, and_self, if_true, List.mem_cons, hj, false_or]
    · simp only [hc, if_false]

theorem add_current_size {s : ADS_set Key} (key : Key) :
    (add P s key).current_size = s.current_size + (1 - count P s key) := by
  by_cases h : locate P s key = []
  · rw [add_of_absent P h]
    simp [count, h]
  · rw [add_of_present P h]
    simp [count, h]

theorem foldl_add_inv {s : ADS_set Key} (hs : Inv P s) (l : List Key) :
    Inv P (l.foldl (add P) s) := by
  induction l generalizing s with
  | nil => exact hs
  | cons k rest ih => exact ih (add_inv P hs k)

theorem foldl_add_table_size (s : ADS_set Key) (l : List Key) :
    (l.foldl (add P) s).table_size = s.table_size := by
  induction l generalizing s with
  | nil => rfl
  | cons k rest ih =>
    rw [List.foldl_cons, ih, add_table_size]

theorem count_foldl_add {s : ADS_set Key} (hs : Inv P s) (l : List Key) (j : Key) :
    count P (l.foldl (add P) s) j = if j ∈ l then 1 else count P s j := by
  induction l generalizing s with
  | nil => simp
  | cons k rest ih =>
    rw [List.foldl_cons, ih (add_inv P hs k), count_add P hs]
    by_cases h1 : j ∈ rest
    · simp [h1]
    · by_cases h2 : j = k
      · simp [h2]
      · simp [h1, h2]

/-- The all-empty table `new List[new_table_size]` with `current_size = 0`. -/
theorem fresh_inv (hN : 0 < P.N) (m : Nat) (hm : P.N ≤ m) :
    Inv P (⟨List.replicate m [], m, 0⟩ : ADS_set Key) := by
  refine ⟨by simp, hm, Nat.lt_of_lt_of_le hN hm, ?_, ?_, ?_⟩
  · intro i k hk
    simp [bucket, getD_replicate_nil] at hk
  · intro i
    simp [bucket, getD_replicate_nil]
  · simp

theorem count_fresh (m : Nat) (j : Key) :
    count P (⟨List.replicate m [], m, 0⟩ : ADS_set Key) j = 0 := by
  rw [count_eq_zero_iff]
  simp [bucket, getD_replicate_nil]

theorem rehash_eq (s : ADS_set Key) (n : Nat) :
    rehash P s n
      = (((List.range s.table_size).map (bucket s)).flatten).foldl (add P)
          ⟨List.replicate (max P.N (max n (P.quot s.current_size))) [],
            max P.N (max n (P.quot s.current_size)), 0⟩ := by
  unfold rehash
  simp only []
  rw [← foldl_flatten_chains, List.foldl_map]

theorem rehash_table_size (s : ADS_set Key) (n : Nat) :
    (rehash P s n).table_size = max P.N (max n (P.quot s.current_size)) := by
  rw [rehash_eq, foldl_add_table_size]

theorem rehash_inv (hN : 0 < P.N) (s : ADS_set Key) (n : Nat) : Inv P (rehash P s n) := by
  rw [rehash_eq]
  exact foldl_add_inv P (fresh_inv P hN _ (Nat.le_max_left _ _)) _

theorem range_buckets {s : ADS_set Key} (h : s.table.length = s.table_size) :
    (List.range s.table_size).map (bucket s) = s.table := by
  rw [← h]
  exact map_getD_range s.table

theorem count_rehash (hN : 0 < P.N) {s : ADS_set Key} (hs : Inv P s) (n : Nat) (j : Key) :
    count P (rehash P s n) j = count P s j := by
  rw [rehash_eq, count_foldl_add P (fresh_inv P hN _ (Nat.le_max_left _ _)), count_fresh,
    range_buckets hs.len]
  by_cases h : j ∈ s.table.flatten
  · simp [h, (mem_flatten_iff P hs j).1 h]
  · simp only [h, if_false]
    rcases count_le_one P s j with h0 | h1
    · exact h0.symm
    · exact absurd ((mem_flatten_iff P hs j).2 h1) h

theorem rehash_current_size (hN : 0 < P.N) {s : ADS_set Key} (hs : Inv P s) (n : Nat) :
    (rehash P s n).current_size = s.current_size :=
  card_eq_of_count_eq P (rehash_inv P hN s n) hs (count_rehash P hN hs n)

theorem growLoop_fits (n : Nat) (fuel t : Nat) (h : 2 * n ≤ t + fuel) :
    P.fits (growLoop P n fuel t) n = true := by
  induction fuel generalizing t with
  | zero => exact P.fits_of_double _ _ (by simpa using h)
  | succ fuel ih =>
    unfold growLoop
    by_cases hf : P.fits t n = true
    · simp [hf]
    · simp only [hf, if_false]
      exact ih _ (by omega)

theorem reserve_inv (hN : 0 < P.N) {s : ADS_set Key} (hs : Inv P s) (n : Nat) :
    Inv P (reserve P s n) := by
  unfold reserve
  split
  · exact hs
  · exact rehash_inv P hN s _

theorem count_reserve (hN : 0 < P.N) {s : ADS_set Key} (hs : Inv P s) (n : Nat) (j : Key) :
    count P (reserve P s n) j = count P s j := by
  unfold reserve
  split
  · rfl
  · exact count_rehash P hN hs _ j

theorem reserve_current_size (hN : 0 < P.N) {s : ADS_set Key} (hs : Inv P s) (n : Nat) :
    (reserve P s n).current_size = s.current_size :=
  card_eq_of_count_eq P (reserve_inv P hN hs n) hs (count_reserve P hN hs n)

theorem blank_rehash (n : Nat) :
    rehash P (blank : ADS_set Key) n = ⟨List.replicate (max P.N n) [], max P.N n, 0⟩ := by
  simp [rehash, blank, P.quot_zero]

theorem ctor_eq : ctor P = (⟨List.replicate P.N [], P.N, 0⟩ : ADS_set Key) := by
  simp [ctor, blank_rehash]

theorem ctor_inv (hN : 0 < P.N) : Inv P (ctor P) := rehash_inv P hN _ _

theorem count_ctor (j : Key) : count P (ctor P) j = 0 := by
  rw [ctor_eq]
  exact count_fresh P _ j

end AddRehash

/-! ## `erase` -/

section Erase

variable (P : Params Key)

theorem unlinkAfter_eq (key : Key) (rest : List Key) (help : Key) (h1 : help ≠ key)
    (h2 : key ∈ rest) :
    unlinkAfter key (help :: rest) = some ((help :: rest).erase key) := by
  induction rest generalizing help with
  | nil => simp at h2
  | cons head rest ih =>
    by_cases hh : head = key
    · simp [unlinkAfter, hh, List.erase_cons, h1]
    · have hmem : key ∈ rest := by
        rcases List.mem_cons.1 h2 with h3 | h3
        · exact absurd h3.symm hh
        · exact h3
      have := ih head hh hmem
      rw [unlinkAfter]
      simp only [hh, if_false, this, Option.map_some']
      simp [List.erase_cons, h1, hh]

theorem erase_of_present {s : ADS_set Key} {key : Key} (h : count P s key = 1) :
    erase P s key
      = some (if P.sparse (unlinked P s key).current_size (unlinked P s key).table_size
          then rehash P (unlinked P s key) (unlinked P s key).current_size
          else unlinked P s key, 1) := by
  have hmem := (count_eq_one_iff P s key).1 h
  unfold erase
  simp only [h, ne_eq, one_ne_zero, not_false_eq_true, if_true]
  cases hb : bucket s (hash P s key) with
  | nil => rw [hb] at hmem; simp at hmem
  | cons head rest =>
    rw [hb] at hmem
    simp only []
    by_cases hh : head = key
    · simp [hh, unlinked, hb]
    · have hmem2 : key ∈ rest := by
        rcases List.mem_cons.1 hmem with h3 | h3
        · exact absurd h3.symm hh
        · exact h3
      simp only [hh, if_false, unlinkAfter_eq key rest head hh hmem2, Option.map_some', unlinked,
        hb]

theorem erase_of_absent {s : ADS_set Key} {key : Key} (h : count P s key = 0) :
    erase P s key = some (s, 0) := by
  simp [erase, h]

theorem bucket_unlinked {s : ADS_set Key} (hs : Inv P s) (key : Key) (i : Nat) :
    bucket (unlinked P s key) i
      = if i = hash P s key then (bucket s i).erase key else bucket s i := by
  have hlt : hash P s key < s.table.length := by
    rw [hs.len]
    exact hash_lt P hs.pos key
  unfold unlinked
  rw [bucket_set]
  by_cases hi : i = hash P s key
  · subst hi
    simp [hlt]
  · simp [hi, Ne.symm hi]

theorem hash_unlinked (s : ADS_set Key) (key j : Key) :
    hash P (unlinked P s key) j = hash P s j := rfl

theorem unlinked_inv {s : ADS_set Key} (hs : Inv P s) {key : Key} (h : count P s key = 1) :
    Inv P (unlinked P s key) := by
  have hmem := (count_eq_one_iff P s key).1 h
  have hb := bucket_unlinked P hs key
  have hlt : hash P s key < s.table.length := by
    rw [hs.len]
    exact hash_lt P hs.pos key
  refine ⟨?_, hs.min, hs.pos, ?_, ?_, ?_⟩
  · simp [unlinked, hs.len]
  · intro i k hk
    rw [hash_unlinked]
    rw [hb] at hk
    by_cases hi : i = hash P s key
    · simp only [hi, if_true] at hk
      rw [hi]
      exact hs.home _ _ (List.mem_of_mem_erase hk)
    · simp only [hi, if_false] at hk
      exact hs.home _ _ hk
  · intro i
    rw [hb]
    split
    · exact (hs.nodup i).erase key
    · exact hs.nodup i
  · have h1 := sum_length_set s.table (hash P s key) ((bucket s (hash P s key)).erase key) hlt
    have h2 := List.length_erase_of_mem hmem
    have h3 : 0 < (bucket s (hash P s key)).length := List.length_pos_of_mem hmem
    have hc := hs.card
    simp only [unlinked, bucket] at h1 h2 h3 ⊢
    omega

theorem count_unlinked {s : ADS_set Key} (hs : Inv P s) (key j : Key) :
    count P (unlinked P s key) j = if j = key then 0 else count P s j := by
  by_cases hj : j = key
  · subst hj
    simp only [if_true]
    rw [count_eq_zero_iff, hash_unlinked, bucket_unlinked P hs]
    simp only [if_true]
    exact fun hc => ((hs.nodup _).mem_erase_iff.1 hc).1 rfl
  · simp only [hj, if_false]
    apply count_congr
    rw [hash_unlinked, bucket_unlinked P hs]
    split
    · rw [(hs.nodup _).mem_erase_iff]
      simp [hj]
    · rfl

theorem unlinked_current_size (s : ADS_set Key) (key : Key) :
    (unlinked P s key).current_size = s.current_size - 1 := rfl

theorem unlinked_table_size (s : ADS_set Key) (key : Key) :
    (unlinked P s key).table_size = s.table_size := rfl

/-- The result of `erase` on a contained key, with its invariant and key set. -/
theorem erase_spec (hN : 0 < P.N) {s : ADS_set Key} (hs : Inv P s) {key : Key}
    (h : count P s key = 1) :
    ∃ s1, erase P s key = some (s1, 1) ∧ Inv P s1 ∧ s1.current_size = s.current_size - 1 ∧
      ∀ j, count P s1 j = if j = key then 0 else count P s j := by
  rw [erase_of_present P h]
  have hu := unlinked_inv P hs h
  by_cases hsp : P.sparse (unlinked P s key).current_size (unlinked P s key).table_size = true
  · refine ⟨rehash P (unlinked P s key) (unlinked P s key).current_size,
      by simp only [hsp, if_true], rehash_inv P hN _ _, ?_, ?_⟩
    · rw [rehash_current_size P hN hu]
      rfl
    · intro j
      rw [count_rehash P hN hu, count_unlinked P hs]
  · refine ⟨unlinked P s key, by simp only [hsp]; rfl, hu, rfl, ?_⟩
    intro j
    rw [count_unlinked P hs]

theorem erase_inv (hN : 0 < P.N) {s s1 : ADS_set Key} (hs : Inv P s) {key : Key} {r : Nat}
    (h : erase P s key = some (s1, r)) : Inv P s1 := by
  rcases count_le_one P s key with h0 | h1
  · rw [erase_of_absent P h0] at h
    cases h
    exact hs
  · obtain ⟨s2, he, hi, _⟩ := erase_spec P hN hs h1
    rw [he] at h
    cases h
    exact hi

end Erase

/-! ## Iteration -/

section Iteration

variable (P : Params Key)

theorem drop_flatten_step (T : List (List Key)) (p : Nat) (h : p < T.length) :
    (T.drop p).flatten = T.getD p [] ++ (T.drop (p + 1)).flatten := by
  rw [List.drop_eq_getElem_cons h, List.flatten_cons]
  simp [List.getD_eq_getElem?_getD, List.getElem?_eq_getElem h]

theorem skipLoop_spec (T : List (List Key)) (fuel p : Nat) (h : p + fuel = T.length) :
    p ≤ Iterator.skipLoop T T.length fuel p ∧ Iterator.skipLoop T T.length fuel p ≤ T.length ∧
      (T.drop p).flatten = (T.drop (Iterator.skipLoop T T.length fuel p)).flatten ∧
      (Iterator.skipLoop T T.length fuel p < T.length →
        T.getD (Iterator.skipLoop T T.length fuel p) [] ≠ []) := by
  induction fuel generalizing p with
  | zero =>
    have e : Iterator.skipLoop T T.length 0 p = p := rfl
    rw [e]
    exact ⟨le_refl _, by omega, rfl, fun hlt => by omega⟩
  | succ fuel ih =>
    have hp : p < T.length := by omega
    by_cases hc : T.getD p [] = []
    · have e : Iterator.skipLoop T T.length (fuel + 1) p
          = Iterator.skipLoop T T.length fuel (p + 1) := by
        rw [Iterator.skipLoop, if_pos ⟨hp, hc⟩]
      rw [e]
      obtain ⟨h1, h2, h3, h4⟩ := ih (p + 1) (by omega)
      refine ⟨by omega, h2, ?_, h4⟩
      rw [drop_flatten_step T p hp, hc, List.nil_append]
      exact h3
    · have e : Iterator.skipLoop T T.length (fuel + 1) p = p := by
        rw [Iterator.skipLoop, if_neg (fun hcon => hc hcon.2)]
      rw [e]
      exact ⟨le_refl _, by omega, rfl, fun _ => hc⟩

theorem pos_nil {T : List (List Key)} {it : Iterator Key} (h : Pos T it []) :
    it.current = [] := by
  rcases h with ⟨_, h⟩ | ⟨_, _, hne, _, hr⟩
  · exact h
  · have := List.append_eq_nil.1 hr.symm
    exact absurd this.1 hne

theorem pos_cons {T : List (List Key)} {it : Iterator Key} {k : Key} {r : List Key}
    (h : Pos T it (k :: r)) :
    ∃ rest, it.current = k :: rest ∧ it.table = T ∧ it.table_size = T.length ∧
      it.position < T.length ∧ r = rest ++ (T.drop (it.position + 1)).flatten := by
  rcases h with ⟨h, _⟩ | ⟨h1, h2, hne, h3, hr⟩
  · simp at h
  · cases hc : it.current with
    | nil => exact absurd hc hne
    | cons c rest =>
      rw [hc, List.cons_append] at hr
      injection hr with hk hr
      subst hk
      exact ⟨rest, rfl, h1, h2, h3, hr⟩

theorem next_pos {T : List (List Key)} {it : Iterator Key} {k : Key} {r : List Key}
    (h : Pos T it (k :: r)) :
    ∃ it1, Iterator.next it = some it1 ∧ Iterator.deref it = some k ∧ Pos T it1 r := by
  obtain ⟨rest, hc, h1, h2, h3, hr⟩ := pos_cons h
  have hd : Iterator.deref it = some k := by simp [Iterator.deref, hc]
  by_cases hrest : rest = []
  · subst hrest
    rw [List.nil_append] at hr
    obtain ⟨_, s2, s3, s4⟩ :=
      skipLoop_spec T (T.length - (it.position + 1)) (it.position + 1) (by omega)
    generalize hq : Iterator.skipLoop T T.length (T.length - (it.position + 1)) (it.position + 1)
      = q at s2 s3 s4
    by_cases hql : q = T.length
    · have e : Iterator.next it = some ⟨[], T, q, T.length⟩ := by
        simp [Iterator.next, hc, Iterator.skip, h1, h2, hq, hql]
      refine ⟨_, e, hd, Or.inl ⟨?_, rfl⟩⟩
      rw [hr, s3, hql]
      simp
    · have hlt : q < T.length := by omega
      have e : Iterator.next it = some ⟨T.getD q [], T, q, T.length⟩ := by
        simp [Iterator.next, hc, Iterator.skip, h1, h2, hq, hql]
      refine ⟨_, e, hd, Or.inr ⟨rfl, rfl, s4 hlt, hlt, ?_⟩⟩
      rw [hr, s3]
      exact drop_flatten_step T _ hlt
  · have e : Iterator.next it = some { it with current := rest } := by
      simp [Iterator.next, hc, hrest]
    exact ⟨_, e, hd, Or.inr ⟨h1, h2, hrest, h3, hr⟩⟩

theorem advance_pos {T : List (List Key)} (j : Nat) {it : Iterator Key} {r : List Key}
    (h : Pos T it r) (hj : j ≤ r.length) :
    ∃ itj, Iterator.advance j it = some itj ∧ Pos T itj (r.drop j) := by
  induction j generalizing it r with
  | zero => exact ⟨it, rfl, h⟩
  | succ j ih =>
    cases r with
    | nil => simp at hj
    | cons k r =>
      obtain ⟨it1, hn, _, hp⟩ := next_pos h
      obtain ⟨itj, ha, hpj⟩ := ih hp (by simpa using hj)
      exact ⟨itj, by simp [Iterator.advance, hn, ha], by simpa using hpj⟩

theorem traverse_pos {T : List (List Key)} (fuel : Nat) {it : Iterator Key} {r : List Key}
    (h : Pos T it r) (hf : r.length ≤ fuel) : Iterator.traverse fuel it = r := by
  induction fuel generalizing it r with
  | zero =>
    have : r = [] := List.eq_nil_of_length_eq_zero (by omega)
    simp [Iterator.traverse, this]
  | succ fuel ih =>
    cases r with
    | nil => simp [Iterator.traverse, pos_nil h]
    | cons k r =>
      obtain ⟨it1, hn, _, hp⟩ := next_pos h
      obtain ⟨rest, hc, _⟩ := pos_cons h
      simp only [Iterator.traverse, hc, hn]
      rw [ih hp (by simpa using hf)]

theorem beginLoop_pos {s : ADS_set Key} (hlen : s.table.length = s.table_size) (left i : Nat)
    (h : i + left = s.table.length) :
    Pos s.table (beginLoop P s left i) (s.table.drop i).flatten := by
  induction left generalizing i with
  | zero =>
    have : i = s.table.length := by omega
    subst this
    exact Or.inl ⟨by simp, rfl⟩
  | succ left ih =>
    have hi : i < s.table.length := by omega
    unfold beginLoop
    by_cases hb : bucket s i = []
    · simp only [hb, ne_eq, not_true_eq_false, if_false]
      have := ih (i + 1) (by omega)
      rw [drop_flatten_step s.table i hi]
      have hb2 : s.table.getD i [] = [] := hb
      rw [hb2, List.nil_append]
      exact this
    · simp only [ne_eq, hb, not_false_eq_true, if_true]
      exact Or.inr ⟨rfl, hlen.symm, hb, hi, drop_flatten_step s.table i hi⟩

theorem begin_pos {s : ADS_set Key} (hlen : s.table.length = s.table_size) :
    Pos s.table (begin P s) s.table.flatten := by
  have := beginLoop_pos P hlen s.table_size 0 (by omega)
  simpa [begin] using this

theorem nodes_eq {s : ADS_set Key} (hlen : s.table.length = s.table_size) :
    nodes s = s.table.flatten.length := by
  unfold nodes
  rw [List.length_flatten, ← range_buckets hlen, List.map_map]
  rfl

/-- A range-based `for` over a set visits the chains of the buckets in index order. -/
theorem toList_eq {s : ADS_set Key} (hlen : s.table.length = s.table_size) :
    toList P s = s.table.flatten := by
  unfold toList
  exact traverse_pos _ (begin_pos P hlen) (by rw [nodes_eq hlen])

end Iteration

/-! ## `insert`, copies, `operator==` -/

section Facade

variable (P : Params Key)

theorem insert_of_present {s : ADS_set Key} {key : Key} (h : count P s key = 1) :
    insert P s key = (s, ⟨locate P s key, s.table, hash P s key, s.table_size⟩, false) := by
  have : locate P s key ≠ [] := by
    intro hc
    simp [count, hc] at h
  simp [ADS_set.insert, this]

theorem insert_of_absent {s : ADS_set Key} {key : Key} (h : count P s key = 0) :
    insert P s key
      = (add P (reserve P s (s.current_size + 1)) key,
          ⟨locate P (add P (reserve P s (s.current_size + 1)) key) key,
            (add P (reserve P s (s.current_size + 1)) key).table,
            hash P (add P (reserve P s (s.current_size + 1)) key) key,
            (add P (reserve P s (s.current_size + 1)) key).table_size⟩, true) := by
  have : locate P s key = [] := by
    by_contra hc
    simp [count, hc] at h
  simp [ADS_set.insert, this]

theorem insert_inv (hN : 0 < P.N) {s : ADS_set Key} (hs : Inv P s) (key : Key) :
    Inv P (insert P s key).1 := by
  rcases count_le_one P s key with h | h
  · rw [insert_of_absent P h]
    exact add_inv P (reserve_inv P hN hs _) key
  · rw [insert_of_present P h]
    exact hs

theorem count_insert (hN : 0 < P.N) {s : ADS_set Key} (hs : Inv P s) (key j : Key) :
    count P (insert P s key).1 j = if j = key then 1 else count P s j := by
  rcases count_le_one P s key with h | h
  · rw [insert_of_absent P h]
    simp only []
    rw [count_add P (reserve_inv P hN hs _), count_reserve P hN hs]
  · rw [insert_of_present P h]
    by_cases hj : j = key
    · simp [hj, h]
    · simp [hj]

theorem insertIlist_inv {s : ADS_set Key} (hs : Inv P s) (ilist : List Key) :
    Inv P (insertIlist P s ilist) := foldl_add_inv P hs ilist

theorem count_insertIlist {s : ADS_set Key} (hs : Inv P s) (ilist : List Key) (j : Key) :
    count P (insertIlist P s ilist) j = if j ∈ ilist then 1 else count P s j :=
  count_foldl_add P hs ilist j

theorem rangeStep_eq (s : ADS_set Key) (k : Key) :
    (if locate P s k = [] then add P (reserve P s (s.current_size + 1)) k else s)
      = (insert P s k).1 := by
  by_cases h : locate P s k = []
  · simp [ADS_set.insert, h]
  · simp [ADS_set.insert, h]

theorem insertRange_eq (s : ADS_set Key) (range : List Key) :
    insertRange P s range = range.foldl (fun acc k => (insert P acc k).1) s := by
  unfold insertRange
  congr 1
  funext acc k
  exact rangeStep_eq P acc k

theorem foldl_insert_inv (hN : 0 < P.N) {s : ADS_set Key} (hs : Inv P s) (l : List Key) :
    Inv P (l.foldl (fun acc k => (insert P acc k).1) s) := by
  induction l generalizing s with
  | nil => exact hs
  | cons k rest ih => exact ih (insert_inv P hN hs k)

theorem count_foldl_insert (hN : 0 < P.N) {s : ADS_set Key} (hs : Inv P s) (l : List Key)
    (j : Key) :
    count P (l.foldl (fun acc k => (insert P acc k).1) s) j
      = if j ∈ l then 1 else count P s j := by
  induction l generalizing s with
  | nil => simp
  | cons k rest ih =>
    rw [List.foldl_cons, ih (insert_inv P hN hs k), count_insert P hN hs]
    by_cases h1 : j ∈ rest
    · simp [h1]
    · by_cases h2 : j = k
      · simp [h2]
      · simp [h1, h2]

theorem insertRange_inv (hN : 0 < P.N) {s : ADS_set Key} (hs : Inv P s) (range : List Key) :
    Inv P (insertRange P s range) := by
  rw [insertRange_eq]
  exact foldl_insert_inv P hN hs range

theorem count_insertRange (hN : 0 < P.N) {s : ADS_set Key} (hs : Inv P s) (range : List Key)
    (j : Key) :
    count P (insertRange P s range) j = if j ∈ range then 1 else count P s j := by
  rw [insertRange_eq]
  exact count_foldl_insert P hN hs range j

theorem copy_eq {s : ADS_set Key} (hs : Inv P s) :
    copy P s = s.table.flatten.foldl (add P)
      ⟨List.replicate s.table_size [], s.table_size, 0⟩ := by
  unfold copy
  rw [toList_eq P hs.len, blank_rehash, Nat.max_eq_right hs.min]

theorem copy_inv (hN : 0 < P.N) {s : ADS_set Key} (hs : Inv P s) : Inv P (copy P s) := by
  rw [copy_eq P hs]
  exact foldl_add_inv P (fresh_inv P hN _ hs.min) _

theorem count_copy (hN : 0 < P.N) {s : ADS_set Key} (hs : Inv P s) (j : Key) :
    count P (copy P s) j = count P s j := by
  rw [copy_eq P hs, count_foldl_add P (fresh_inv P hN _ hs.min), count_fresh]
  by_cases h : j ∈ s.table.flatten
  · simp [h, (mem_flatten_iff P hs j).1 h]
  · simp only [h, if_false]
    rcases count_le_one P s j with h0 | h1
    · exact h0.symm
    · exact absurd ((mem_flatten_iff P hs j).2 h1) h

theorem copy_table_size {s : ADS_set Key} (hs : Inv P s) :
    (copy P s).table_size = s.table_size := by
  rw [copy_eq P hs, foldl_add_table_size]

/-- The meaning of `operator==` on well-formed sets: the same keys. -/
theorem equal_iff {a b : ADS_set Key} (ha : Inv P a) (hb : Inv P b) :
    equal P a b = true ↔ ∀ k, count P a k = count P b k := by
  unfold equal
  rw [toList_eq P ha.len]
  constructor
  · intro h
    by_cases hsz : a.current_size = b.current_size
    · simp only [hsz, ne_eq, not_true_eq_false, if_false, List.all_eq_true,
        decide_eq_true_eq] at h
      have hsub : a.table.flatten ⊆ b.table.flatten := by
        intro k hk
        rcases count_le_one P b k with h0 | h1
        · exact absurd h0 (h k hk)
        · exact (mem_flatten_iff P hb k).2 h1
      have hperm : a.table.flatten.Perm b.table.flatten :=
        (List.subperm_of_subset (nodup_flatten P ha) hsub).perm_of_length_le
          (by rw [length_flatten_eq P ha, length_flatten_eq P hb, hsz])
      intro k
      have hiff := hperm.mem_iff (a := k)
      rw [mem_flatten_iff P ha, mem_flatten_iff P hb] at hiff
      rcases count_le_one P a k with h0 | h1
      · rcases count_le_one P b k with g0 | g1
        · rw [h0, g0]
        · rw [hiff.2 g1] at h0
          exact absurd h0 (by decide)
      · rw [h1, hiff.1 h1]
    · simp [hsz] at h
  · intro h
    have hsz := card_eq_of_count_eq P ha hb h
    simp only [hsz, ne_eq, not_true_eq_false, if_false, List.all_eq_true, decide_eq_true_eq]
    intro k hk
    rw [← h k, (mem_flatten_iff P ha k).1 hk]
    decide

/-- Every reachable object satisfies the representation invariant. -/
theorem Reachable.inv (hN : 0 < P.N) {s : ADS_set Key} (h : Reachable P s) : Inv P s := by
  induction h with
  | ctor => exact ctor_inv P hN
  | ctorIlist ilist => exact insertIlist_inv P (ctor_inv P hN) ilist
  | ctorRange range => exact insertRange_inv P hN (ctor_inv P hN) range
  | copy _ ih => exact copy_inv P hN ih
  | insert key _ ih => exact insert_inv P hN ih key
  | insertIlist ilist _ ih => exact insertIlist_inv P ih ilist
  | insertRange range _ ih => exact insertRange_inv P hN ih range
  | erase key r _ he ih => exact erase_inv P hN ih he
  | clear _ _ => exact ctor_inv P hN
  | assign _ _ _ ih2 => exact copy_inv P hN ih2
  | assignIlist ilist _ _ => exact insertIlist_inv P (ctor_inv P hN) ilist
  | swapLeft _ _ _ ih2 => exact ih2
  | swapRight _ _ ih1 _ => exact ih1

end Facade

/-! ## Contract of `insert` and `erase` -/

section Contract

variable (P : Params Key)

theorem locate_suffix (s : ADS_set Key) (key : Key) :
    ∃ pre, bucket s (hash P s key) = pre ++ locate P s key ∧ key ∉ pre := by
  rw [locate_eq_locateChain]
  exact locateChain_suffix key _

theorem locate_head {s : ADS_set Key} {key : Key} (h : count P s key = 1) :
    (locate P s key).head? = some key := by
  rw [locate_eq_locateChain]
  exact locateChain_head key _ ((count_eq_one_iff P s key).1 h)

theorem find_of_absent {s : ADS_set Key} {key : Key} (h : count P s key = 0) :
    find P s key = end_ P s := by
  have : locate P s key = [] := by
    by_contra hc
    simp [count, hc] at h
  simp [find, this]

theorem find_of_present {s : ADS_set Key} {key : Key} (h : count P s key = 1) :
    find P s key = ⟨locate P s key, s.table, hash P s key, s.table_size⟩ := by
  have : locate P s key ≠ [] := by
    intro hc
    simp [count, hc] at h
  simp [find, this]

theorem find_ne_end {s : ADS_set Key} {key : Key} (h : count P s key = 1) :
    Iterator.eq (find P s key) (end_ P s) = false := by
  have : locate P s key ≠ [] := by
    intro hc
    simp [count, hc] at h
  rw [find_of_present P h]
  simp [Iterator.eq, end_, Iterator.nil, this]

theorem size_pos_of_count {s : ADS_set Key} (hs : Inv P s) {key : Key} (h : count P s key = 1) :
    0 < s.current_size := by
  rw [← length_flatten_eq P hs]
  exact List.length_pos_of_mem ((mem_flatten_iff P hs key).2 h)

end Contract

section Traversal

variable (P : Params Key)

theorem pos_deref {T : List (List Key)} {it : Iterator Key} {r : List Key} (h : Pos T it r) :
    Iterator.deref it = r.head? ∧ (it.current = [] ↔ r = []) := by
  cases r with
  | nil =>
    have := pos_nil h
    simp [Iterator.deref, this]
  | cons k r =>
    obtain ⟨rest, hc, _⟩ := pos_cons h
    simp [Iterator.deref, hc]

theorem eq_end_iff (s : ADS_set Key) (it : Iterator Key) :
    Iterator.eq it (end_ P s) = decide (it.current = []) := by
  simp [Iterator.eq, end_, Iterator.nil]

theorem equal_comm {a b : ADS_set Key} (ha : Inv P a) (hb : Inv P b) :
    equal P a b = equal P b a := by
  have h1 := equal_iff P ha hb
  have h2 := equal_iff P hb ha
  cases hab : equal P a b with
  | true =>
    have := h1.1 hab
    exact (h2.2 (fun k => (this k).symm)).symm
  | false =>
    cases hba : equal P b a with
    | false => rfl
    | true =>
      have := h2.1 hba
      rw [h1.2 (fun k => (this k).symm)] at hab
      exact absurd hab (by decide)

theorem count_ctorIlist (hN : 0 < P.N) (l : List Key) (j : Key) :
    count P (ctorIlist P l) j = if j ∈ l then 1 else 0 := by
  unfold ctorIlist
  rw [count_insertIlist P (ctor_inv P hN), count_ctor]

theorem count_insertAll (hN : 0 < P.N) (l : List Key) (j : Key) :
    count P (insertAll P l) j = if j ∈ l then 1 else 0 := by
  unfold insertAll
  rw [count_foldl_insert P hN (ctor_inv P hN), count_ctor]

theorem ctorIlist_inv (hN : 0 < P.N) (l : List Key) : Inv P (ctorIlist P l) :=
  insertIlist_inv P (ctor_inv P hN) l

theorem insertAll_inv (hN : 0 < P.N) (l : List Key) : Inv P (insertAll P l) :=
  foldl_insert_inv P hN (ctor_inv P hN) l

/-- A set built from a list, in either way, holds exactly the keys of the list. -/
theorem built_spec (hN : 0 < P.N) (l : List Key) (A : ADS_set Key)
    (hA : A = ctorIlist P l ∨ A = insertAll P l) :
    Inv P A ∧ ∀ j, count P A j = if j ∈ l then 1 else 0 := by
  rcases hA with rfl | rfl
  · exact ⟨ctorIlist_inv P hN l, count_ctorIlist P hN l⟩
  · exact ⟨insertAll_inv P hN l, count_insertAll P hN l⟩

end Traversal

/-- C1: on a reachable set that does not contain `k`, `insert(k)` returns the flag `true` and an
iterator into the new table, positioned in bucket `hash(k)` at the node holding `k`; `size()` has
grown by exactly one and `find(k)` is different from `end()`. -/
theorem insert_absent_key (P : Params Key) (hN : 0 < P.N) (s : ADS_set Key) (k : Key)
    (hs : Reachable P s) (hk : count P s k = 0) :
    (insert P s k).2.2 = true ∧
    Iterator.deref (insert P s k).2.1 = some k ∧
    (insert P s k).2.1.table = (insert P s k).1.table ∧
    (insert P s k).2.1.table_size = (insert P s k).1.table_size ∧
    (insert P s k).2.1.position = hash P (insert P s k).1 k ∧
    (∃ pre, bucket (insert P s k).1 (hash P (insert P s k).1 k)
        = pre ++ (insert P s k).2.1.current ∧ k ∉ pre) ∧
    size (insert P s k).1 = size s + 1 ∧
    Iterator.eq (find P (insert P s k).1 k) (end_ P (insert P s k).1) = false ∧
    count P (insert P s k).1 k = 1 := by
  have hi := Reachable.inv P hN hs
  have hc : count P (insert P s k).1 k = 1 := by
    rw [count_insert P hN hi]
    simp
  have hsz : size (insert P s k).1 = size s + 1 := by
    rw [insert_of_absent P hk]
    simp only [size]
    rw [add_current_size, count_reserve P hN hi, hk, reserve_current_size P hN hi]
  refine ⟨?_, ?_, ?_, ?_, ?_, ?_, hsz, find_ne_end P hc, hc⟩
  · rw [insert_of_absent P hk]
  · have := locate_head P hc
    rw [insert_of_absent P hk] at this ⊢
    exact this
  · rw [insert_of_absent P hk]
  · rw [insert_of_absent P hk]
  · rw [insert_of_absent P hk]
  · have := locate_suffix P (insert P s k).1 k
    rw [insert_of_absent P hk] at this ⊢
    exact this

/-- C2: on a set that contains `k`, `insert(k)` returns the flag `false` and an iterator
positioned in bucket `hash(k)` at the node holding `k`, and the object is unchanged (`table`,
`table_size` and `current_size` are what they were). -/
theorem insert_present_key (P : Params Key) (s : ADS_set Key) (k : Key)
    (hk : count P s k = 1) :
    (insert P s k).2.2 = false ∧
    (insert P s k).1 = s ∧
    Iterator.deref (insert P s k).2.1 = some k ∧
    (insert P s k).2.1.table = s.table ∧
    (insert P s k).2.1.table_size = s.table_size ∧
    (insert P s k).2.1.position = hash P s k ∧
    (∃ pre, bucket s (hash P s k) = pre ++ (insert P s k).2.1.current ∧ k ∉ pre) := by
  rw [insert_of_present P hk]
  exact ⟨rfl, rfl, locate_head P hk, rfl, rfl, rfl, locate_suffix P s k⟩

/-- C3: on a reachable set that contains `k`, `erase(k)` returns `1`, `size()` has dropped by
exactly one, and afterwards `find(k)` is `end()` and `count(k)` is `0`, whatever the shrink test
`current_size < table_size * 0.2` answers. -/
theorem erase_present_key (P : Params Key) (hN : 0 < P.N) (s : ADS_set Key) (k : Key)
    (hs : Reachable P s) (hk : count P s k = 1) :
    ∃ s1, erase P s k = some (s1, 1) ∧ size s1 + 1 = size s ∧ size s1 = size s - 1 ∧
      find P s1 k = end_ P s1 ∧ Iterator.eq (find P s1 k) (end_ P s1) = true ∧
      count P s1 k = 0 := by
  have hi := Reachable.inv P hN hs
  obtain ⟨s1, he, _, hsz, hcnt⟩ := erase_spec P hN hi hk
  have hpos := size_pos_of_count P hi hk
  have h0 : count P s1 k = 0 := by
    rw [hcnt k]
    simp
  refine ⟨s1, he, ?_, hsz, find_of_absent P h0, ?_, h0⟩
  · simp only [size]
    omega
  · rw [find_of_absent P h0]
    simp [Iterator.eq]

/-- C4: on a set that does not contain `k`, `erase(k)` returns `0` and the object is unchanged
(`table`, `table_size` and `current_size` are what they were, so no rehash has run). -/
theorem erase_absent_key (P : Params Key) (s : ADS_set Key) (k : Key)
    (hk : count P s k = 0) :
    erase P s k = some (s, 0) :=
  erase_of_absent P hk

/-- C5: on a reachable set that contains `k`, `erase(k)` succeeds and leaves `count(j)` unchanged
for every key `j` different from `k`, whatever the position of `k` in its chain and whatever the
shrink test answers. -/
theorem erase_keeps_other_keys (P : Params Key) (hN : 0 < P.N) (s : ADS_set Key) (k j : Key)
    (hs : Reachable P s) (hk : count P s k = 1) (hj : j ≠ k) :
    ∃ s1, erase P s k = some (s1, 1) ∧ count P s1 j = count P s j := by
  have hi := Reachable.inv P hN hs
  obtain ⟨s1, he, _, _, hcnt⟩ := erase_spec P hN hi hk
  refine ⟨s1, he, ?_⟩
  rw [hcnt j]
  simp [hj]

/-- Witness for C1: inserting `3` into the default-constructed set. -/
theorem insert_absent_key_witness :
    0 < natParams.N ∧ Reachable natParams (ctor natParams) ∧
    count natParams (ctor natParams) 3 = 0 ∧
    (insert natParams (ctor natParams) 3).2.2 = true ∧
    Iterator.deref (insert natParams (ctor natParams) 3).2.1 = some 3 ∧
    (insert natParams (ctor natParams) 3).2.1.table
      = (insert natParams (ctor natParams) 3).1.table ∧
    (insert natParams (ctor natParams) 3).2.1.table_size
      = (insert natParams (ctor natParams) 3).1.table_size ∧
    (insert natParams (ctor natParams) 3).2.1.position
      = hash natParams (insert natParams (ctor natParams) 3).1 3 ∧
    (∃ pre, bucket (insert natParams (ctor natParams) 3).1
        (hash natParams (insert natParams (ctor natParams) 3).1 3)
        = pre ++ (insert natParams (ctor natParams) 3).2.1.current ∧ 3 ∉ pre) ∧
    size (insert natParams (ctor natParams) 3).1 = size (ctor natParams) + 1 ∧
    Iterator.eq (find natParams (insert natParams (ctor natParams) 3).1 3)
      (end_ natParams (insert natParams (ctor natParams) 3).1) = false ∧
    count natParams (insert natParams (ctor natParams) 3).1 3 = 1 :=
  ⟨by decide, Reachable.ctor, by decide,
    insert_absent_key natParams (by decide) (ctor natParams) 3 Reachable.ctor (by decide)⟩

/-- Witness for C2: inserting `1` into the set built from `{1, 1, 2, 3}`. -/
theorem insert_present_key_witness :
    count natParams (ctorIlist natParams [1, 1, 2, 3]) 1 = 1 ∧
    (insert natParams (ctorIlist natParams [1, 1, 2, 3]) 1).2.2 = false ∧
    (insert natParams (ctorIlist natParams [1, 1, 2, 3]) 1).1
      = ctorIlist natParams [1, 1, 2, 3] :=
  ⟨by decide,
    (insert_present_key natParams (ctorIlist natParams [1, 1, 2, 3]) 1 (by decide)).1,
    (insert_present_key natParams (ctorIlist natParams [1, 1, 2, 3]) 1 (by decide)).2.1⟩

/-- Witness for C3: erasing `2` from the set built from `{1, 1, 2, 3}`. -/
theorem erase_present_key_witness :
    0 < natParams.N ∧ Reachable natParams (ctorIlist natParams [1, 1, 2, 3]) ∧
    count natParams (ctorIlist natParams [1, 1, 2, 3]) 2 = 1 ∧
    ∃ s1, erase natParams (ctorIlist natParams [1, 1, 2, 3]) 2 = some (s1, 1) ∧
      size s1 + 1 = size (ctorIlist natParams [1, 1, 2, 3]) ∧
      size s1 = size (ctorIlist natParams [1, 1, 2, 3]) - 1 ∧
      find natParams s1 2 = end_ natParams s1 ∧
      Iterator.eq (find natParams s1 2) (end_ natParams s1) = true ∧
      count natParams s1 2 = 0 :=
  ⟨by decide, Reachable.ctorIlist _, by decide,
    erase_present_key natParams (by decide) (ctorIlist natParams [1, 1, 2, 3]) 2
      (Reachable.ctorIlist _) (by decide)⟩

/-- Witness for C4: erasing `5` from the set built from `{1, 1, 2, 3}`. -/
theorem erase_absent_key_witness :
    count natParams (ctorIlist natParams [1, 1, 2, 3]) 5 = 0 ∧
    erase natParams (ctorIlist natParams [1, 1, 2, 3]) 5
      = some (ctorIlist natParams [1, 1, 2, 3], 0) :=
  ⟨by decide, erase_absent_key natParams (ctorIlist natParams [1, 1, 2, 3]) 5 (by decide)⟩

/-- Witness for C5: erasing the tail node `1` of the chain `22, 15, 8, 1` keeps `15`. -/
theorem erase_keeps_other_keys_witness :
    0 < natParams.N ∧ Reachable natParams (ctorIlist natParams [1, 8, 15, 22]) ∧
    count natParams (ctorIlist natParams [1, 8, 15, 22]) 1 = 1 ∧ 15 ≠ 1 ∧
    ∃ s1, erase natParams (ctorIlist natParams [1, 8, 15, 22]) 1 = some (s1, 1) ∧
      count natParams s1 15 = count natParams (ctorIlist natParams [1, 8, 15, 22]) 15 :=
  ⟨by decide, Reachable.ctorIlist _, by decide, by decide,
    erase_keeps_other_keys natParams (by decide) (ctorIlist natParams [1, 8, 15, 22]) 1 15
      (Reachable.ctorIlist _) (by decide) (by decide)⟩

/-- C6: on a reachable set, `size()` applications of `operator++` to `begin()` all succeed; the
iterator equals `end()` after exactly `size()` steps and not earlier; the keys it yields on the way
are `size()` pairwise distinct keys, and `k` is among them exactly when `count(k) == 1`. -/
theorem iteration_yields_keys (P : Params Key) (hN : 0 < P.N) (s : ADS_set Key)
    (hs : Reachable P s) :
    ∃ keys : List Key, keys.length = size s ∧ keys.Nodup ∧
      (∀ k, k ∈ keys ↔ count P s k = 1) ∧
      ∀ j, j ≤ size s → ∃ it, Iterator.advance j (begin P s) = some it ∧
        Iterator.deref it = keys[j]? ∧
        Iterator.eq it (end_ P s) = decide (j = size s) := by
  have hi := Reachable.inv P hN hs
  have hlen := length_flatten_eq P hi
  refine ⟨s.table.flatten, hlen, nodup_flatten P hi, fun k => mem_flatten_iff P hi k, ?_⟩
  intro j hj
  obtain ⟨it, ha, hp⟩ :=
    advance_pos j (begin_pos P hi.len) (by rw [hlen]; exact hj)
  obtain ⟨hd, hc⟩ := pos_deref hp
  refine ⟨it, ha, ?_, ?_⟩
  · rw [hd, List.head?_drop]
  · rw [eq_end_iff, decide_eq_decide, hc, List.drop_eq_nil_iff, hlen]
    simp only [size] at hj ⊢
    omega

/-- Witness for C6: the set built from `{1, 1, 2, 3}`. -/
theorem iteration_yields_keys_witness :
    0 < natParams.N ∧ Reachable natParams (ctorIlist natParams [1, 1, 2, 3]) ∧
    ∃ keys : List Nat, keys.length = size (ctorIlist natParams [1, 1, 2, 3]) ∧ keys.Nodup ∧
      (∀ k, k ∈ keys ↔ count natParams (ctorIlist natParams [1, 1, 2, 3]) k = 1) ∧
      ∀ j, j ≤ size (ctorIlist natParams [1, 1, 2, 3]) →
        ∃ it, Iterator.advance j (begin natParams (ctorIlist natParams [1, 1, 2, 3])) = some it ∧
          Iterator.deref it = keys[j]? ∧
          Iterator.eq it (end_ natParams (ctorIlist natParams [1, 1, 2, 3]))
            = decide (j = size (ctorIlist natParams [1, 1, 2, 3])) :=
  ⟨by decide, Reachable.ctorIlist _,
    iteration_yields_keys natParams (by decide) (ctorIlist natParams [1, 1, 2, 3])
      (Reachable.ctorIlist _)⟩

/-- C7: for two reachable sets, `a == b` is true exactly when every key has the same `count` in
both, and `a == b` has the same value as `b == a`. -/
theorem equal_iff_same_keys (P : Params Key) (hN : 0 < P.N) (a b : ADS_set Key)
    (ha : Reachable P a) (hb : Reachable P b) :
    (equal P a b = true ↔ ∀ k, count P a k = count P b k) ∧ equal P a b = equal P b a :=
  ⟨equal_iff P (Reachable.inv P hN ha) (Reachable.inv P hN hb),
    equal_comm P (Reachable.inv P hN ha) (Reachable.inv P hN hb)⟩

/-- Witness for C7: a set with seven buckets against a set with 29 buckets. -/
theorem equal_iff_same_keys_witness :
    0 < natParams.N ∧ Reachable natParams (ctorIlist natParams [1, 8, 2]) ∧
    Reachable natParams (ctorRange natParams [2, 1, 8, 4, 5]) ∧
    (equal natParams (ctorIlist natParams [1, 8, 2]) (ctorRange natParams [2, 1, 8, 4, 5]) = true ↔
      ∀ k, count natParams (ctorIlist natParams [1, 8, 2]) k
        = count natParams (ctorRange natParams [2, 1, 8, 4, 5]) k) ∧
    equal natParams (ctorIlist natParams [1, 8, 2]) (ctorRange natParams [2, 1, 8, 4, 5])
      = equal natParams (ctorRange natParams [2, 1, 8, 4, 5]) (ctorIlist natParams [1, 8, 2]) :=
  ⟨by decide, Reachable.ctorIlist _, Reachable.ctorRange _,
    equal_iff_same_keys natParams (by decide) _ _ (Reachable.ctorIlist _) (Reachable.ctorRange _)⟩

/-- C8: for a list `L` and a permutation `L2` of it, a set built from `L` (by the initializer-list
constructor or by inserting the elements one by one) compares equal to a set built from `L2` in
either way; a set built from a list `M` whose keys are a proper subset of those of `L` compares
unequal to it, on either side of `==`. -/
theorem equal_order_independent (P : Params Key) (hN : 0 < P.N) (L L2 : List Key)
    (hp : L.Perm L2) :
    (∀ A B : ADS_set Key, (A = ctorIlist P L ∨ A = insertAll P L) →
      (B = ctorIlist P L2 ∨ B = insertAll P L2) → equal P A B = true) ∧
    (∀ (M : List Key) (A C : ADS_set Key), (∀ k, k ∈ M → k ∈ L) → (∃ k, k ∈ L ∧ k ∉ M) →
      (A = ctorIlist P L ∨ A = insertAll P L) → (C = ctorIlist P M ∨ C = insertAll P M) →
      equal P C A = false ∧ equal P A C = false) := by
  constructor
  · intro A B hA hB
    obtain ⟨iA, cA⟩ := built_spec P hN L A hA
    obtain ⟨iB, cB⟩ := built_spec P hN L2 B hB
    rw [equal_iff P iA iB]
    intro k
    rw [cA k, cB k]
    simp only [hp.mem_iff]
  · intro M A C _ hprop hA hC
    obtain ⟨iA, cA⟩ := built_spec P hN L A hA
    obtain ⟨iC, cC⟩ := built_spec P hN M C hC
    obtain ⟨k, hkL, hkM⟩ := hprop
    have hne : count P C k ≠ count P A k := by
      rw [cA k, cC k]
      simp [hkL, hkM]
    constructor
    · cases h : equal P C A with
      | false => rfl
      | true => exact absurd ((equal_iff P iC iA).1 h k) hne
    · cases h : equal P A C with
      | false => rfl
      | true => exact absurd ((equal_iff P iA iC).1 h k).symm hne

/-- Witness for C8: `{1, 2, 3}` against the set obtained by inserting `3, 1, 2`, and `{1, 2}`
against `{1, 2, 3}`. -/
theorem equal_order_independent_witness :
    0 < natParams.N ∧ List.Perm [1, 2, 3] [3, 1, 2] ∧
    equal natParams (ctorIlist natParams [1, 2, 3]) (insertAll natParams [3, 1, 2]) = true ∧
    equal natParams (ctorIlist natParams [1, 2]) (ctorIlist natParams [1, 2, 3]) = false ∧
    equal natParams (ctorIlist natParams [1, 2, 3]) (ctorIlist natParams [1, 2]) = false :=
  ⟨by decide, by decide,
    (equal_order_independent natParams (by decide) [1, 2, 3] [3, 1, 2] (by decide)).1 _ _
      (Or.inl rfl) (Or.inr rfl),
    (equal_order_independent natParams (by decide) [1, 2, 3] [1, 2, 3] (List.Perm.refl _)).2
      [1, 2] _ _ (by decide) ⟨3, by decide, by decide⟩ (Or.inl rfl) (Or.inl rfl)⟩

/-- C9: the copy of a reachable set compares equal to it in both directions, has the same
`size()` and the same `table_size`, and holds exactly the keys the original held when it was
copied; once the original has gained a key by `insert` or lost one by `erase`, the copy, which
still holds the old keys, no longer compares equal to it. -/
theorem copy_equal_independent (P : Params Key) (hN : 0 < P.N) (s : ADS_set Key)
    (hs : Reachable P s) :
    equal P (copy P s) s = true ∧ equal P s (copy P s) = true ∧
    size (copy P s) = size s ∧ (copy P s).table_size = s.table_size ∧
    (∀ k, count P (copy P s) k = count P s k) ∧
    (∀ k, count P s k = 0 →
      count P (insert P s k).1 k = 1 ∧ count P (copy P s) k = 0 ∧
      equal P (copy P s) (insert P s k).1 = false) ∧
    (∀ k s1, count P s k = 1 → erase P s k = some (s1, 1) →
      count P s1 k = 0 ∧ count P (copy P s) k = 1 ∧ equal P (copy P s) s1 = false) := by
  have hi := Reachable.inv P hN hs
  have hc := copy_inv P hN hi
  have hcnt := count_copy P hN hi
  refine ⟨(equal_iff P hc hi).2 hcnt, (equal_iff P hi hc).2 (fun k => (hcnt k).symm),
    card_eq_of_count_eq P hc hi hcnt, copy_table_size P hi, hcnt, ?_, ?_⟩
  · intro k hk
    have h1 : count P (insert P s k).1 k = 1 := by
      rw [count_insert P hN hi]
      simp
    have h0 : count P (copy P s) k = 0 := by rw [hcnt k, hk]
    refine ⟨h1, h0, ?_⟩
    cases h : equal P (copy P s) (insert P s k).1 with
    | false => rfl
    | true =>
      have := (equal_iff P hc (insert_inv P hN hi k)).1 h k
      rw [h1, h0] at this
      exact absurd this (by decide)
  · intro k s1 hk he
    obtain ⟨s2, he2, hi2, _, hcnt2⟩ := erase_spec P hN hi hk
    rw [he] at he2
    cases he2
    have h0 : count P s1 k = 0 := by
      rw [hcnt2 k]
      simp
    have h1 : count P (copy P s) k = 1 := by rw [hcnt k, hk]
    refine ⟨h0, h1, ?_⟩
    cases h : equal P (copy P s) s1 with
    | false => rfl
    | true =>
      have := (equal_iff P hc hi2).1 h k
      rw [h1, h0] at this
      exact absurd this (by decide)

/-- Witness for C9: copying the set built from `{1, 8, 15, 2, 3}`. -/
theorem copy_equal_independent_witness :
    0 < natParams.N ∧ Reachable natParams (ctorIlist natParams [1, 8, 15, 2, 3]) ∧
    equal natParams (copy natParams (ctorIlist natParams [1, 8, 15, 2, 3]))
      (ctorIlist natParams [1, 8, 15, 2, 3]) = true ∧
    (copy natParams (ctorIlist natParams [1, 8, 15, 2, 3])).table_size
      = (ctorIlist natParams [1, 8, 15, 2, 3]).table_size :=
  ⟨by decide, Reachable.ctorIlist _,
    (copy_equal_independent natParams (by decide) _ (Reachable.ctorIlist _)).1,
    (copy_equal_independent natParams (by decide) _ (Reachable.ctorIlist _)).2.2.2.1⟩

/-- C10: with `N >= 1`, every reachable object has `table_size >= N`, and so has the object
`erase` leaves behind, whether or not it ran the shrink rehash. -/
theorem table_size_ge_N (P : Params Key) (hN : 1 ≤ P.N) (s : ADS_set Key)
    (hs : Reachable P s) :
    P.N ≤ s.table_size ∧
    ∀ k s1 r, erase P s k = some (s1, r) → P.N ≤ s1.table_size :=
  ⟨(Reachable.inv P hN hs).min,
    fun _ _ _ he => (erase_inv P hN (Reachable.inv P hN hs) he).min⟩

/-- Witness for C10: the set left after erasing `2` from `{1, 1, 2, 3}`. -/
theorem table_size_ge_N_witness :
    1 ≤ natParams.N ∧ Reachable natParams (ctorIlist natParams [1, 1, 2, 3]) ∧
    natParams.N ≤ (ctorIlist natParams [1, 1, 2, 3]).table_size ∧
    ∀ k s1 r, erase natParams (ctorIlist natParams [1, 1, 2, 3]) k = some (s1, r) →
      natParams.N ≤ s1.table_size :=
  ⟨by decide, Reachable.ctorIlist _,
    table_size_ge_N natParams (by decide) _ (Reachable.ctorIlist _)⟩

/-! ## Size bounds, lookup and construction from a list -/

/-- C11: the claim `current_size <= table_size` fails for the set constructed from the
initializer list `{0, 1, 2, 3, 4, 5, 6, 7}` with `N = 7`: `insert(std::initializer_list)` calls
`add` without `reserve`, so the eight keys land in the seven buckets of the default table. -/
theorem ilist_exceeds_table :
    Reachable natParams (ctorIlist natParams [0, 1, 2, 3, 4, 5, 6, 7]) ∧
    (ctorIlist natParams [0, 1, 2, 3, 4, 5, 6, 7]).current_size = 8 ∧
    (ctorIlist natParams [0, 1, 2, 3, 4, 5, 6, 7]).table_size = 7 ∧
    ¬ (ctorIlist natParams [0, 1, 2, 3, 4, 5, 6, 7]).current_size
        ≤ (ctorIlist natParams [0, 1, 2, 3, 4, 5, 6, 7]).table_size ∧
    (ctorRange natParams [0, 1, 2, 3, 4, 5, 6, 7]).current_size = 8 ∧
    (ctorRange natParams [0, 1, 2, 3, 4, 5, 6, 7]).table_size = 29 :=
  ⟨Reachable.ctorIlist _, by decide, by decide, by decide, by decide, by decide⟩

/-- C13: on a reachable set, `count(k)` is `0` or `1`; when a node of the table holds `k`,
`count(k)` is `1` and `find(k)` is the iterator into the table of the set, positioned in bucket
`hash(k)` at the node holding `k`, and differs from `end()`; when no node holds `k`, `count(k)`
is `0` and `find(k)` is `end()`. -/
theorem count_find_spec (P : Params Key) (hN : 0 < P.N) (s : ADS_set Key) (k : Key)
    (hs : Reachable P s) :
    (count P s k = 0 ∨ count P s k = 1) ∧
    (k ∈ s.table.flatten →
      count P s k = 1 ∧
      Iterator.eq (find P s k) (end_ P s) = false ∧
      Iterator.deref (find P s k) = some k ∧
      (find P s k).table = s.table ∧ (find P s k).table_size = s.table_size ∧
      (find P s k).position = hash P s k ∧
      ∃ pre, bucket s (hash P s k) = pre ++ (find P s k).current ∧ k ∉ pre) ∧
    (k ∉ s.table.flatten →
      count P s k = 0 ∧ find P s k = end_ P s ∧
      Iterator.eq (find P s k) (end_ P s) = true) := by
  have hi := Reachable.inv P hN hs
  refine ⟨count_le_one P s k, ?_, ?_⟩
  · intro hk
    have h1 := (mem_flatten_iff P hi k).1 hk
    refine ⟨h1, find_ne_end P h1, ?_⟩
    rw [find_of_present P h1]
    exact ⟨locate_head P h1, rfl, rfl, rfl, locate_suffix P s k⟩
  · intro hk
    have h0 : count P s k = 0 := by
      rcases count_le_one P s k with h | h
      · exact h
      · exact absurd ((mem_flatten_iff P hi k).2 h) hk
    refine ⟨h0, find_of_absent P h0, ?_⟩
    rw [find_of_absent P h0]
    simp [Iterator.eq]

/-- Witness for C13: looking up `2` in the set built from `{1, 1, 2, 3}`. -/
theorem count_find_spec_witness :
    0 < natParams.N ∧ Reachable natParams (ctorIlist natParams [1, 1, 2, 3]) ∧
    2 ∈ (ctorIlist natParams [1, 1, 2, 3]).table.flatten ∧
    count natParams (ctorIlist natParams [1, 1, 2, 3]) 2 = 1 ∧
    Iterator.eq (find natParams (ctorIlist natParams [1, 1, 2, 3]) 2)
      (end_ natParams (ctorIlist natParams [1, 1, 2, 3])) = false ∧
    Iterator.deref (find natParams (ctorIlist natParams [1, 1, 2, 3]) 2) = some 2 :=
  ⟨by decide, Reachable.ctorIlist _, by decide,
    ((count_find_spec natParams (by decide) _ 2 (Reachable.ctorIlist _)).2.1 (by decide)).1,
    ((count_find_spec natParams (by decide) _ 2 (Reachable.ctorIlist _)).2.1 (by decide)).2.1,
    ((count_find_spec natParams (by decide) _ 2 (Reachable.ctorIlist _)).2.1 (by decide)).2.2.1⟩

/-- C14: the set constructed from the initializer list `L` has `size()` equal to the number of
distinct keys of `L`, `count(k) == 1` for every `k` occurring in `L` and `count(k) == 0` for every
other key; built from `{1, 1, 2, 3}` it has `size() == 3` and `count(1) == 1`. -/
theorem ctorIlist_spec (P : Params Key) (hN : 0 < P.N) (L : List Key) :
    size (ctorIlist P L) = L.dedup.length ∧
    (∀ k, k ∈ L → count P (ctorIlist P L) k = 1) ∧
    (∀ k, k ∉ L → count P (ctorIlist P L) k = 0) := by
  have hi := ctorIlist_inv P hN L
  have hc := count_ctorIlist P hN L
  refine ⟨?_, ?_, ?_⟩
  · simp only [size]
    rw [← length_flatten_eq P hi]
    apply List.Perm.length_eq
    rw [List.perm_ext_iff_of_nodup (nodup_flatten P hi) (List.nodup_dedup L)]
    intro k
    rw [mem_flatten_iff P hi, List.mem_dedup, hc k]
    by_cases h : k ∈ L
    · simp [h]
    · simp [h]
  · intro k hk
    rw [hc k]
    simp [hk]
  · intro k hk
    rw [hc k]
    simp [hk]

/-- Witness for C14: the set built from `{1, 1, 2, 3}`. -/
theorem ctorIlist_spec_witness :
    0 < natParams.N ∧
    size (ctorIlist natParams [1, 1, 2, 3]) = 3 ∧
    count natParams (ctorIlist natParams [1, 1, 2, 3]) 1 = 1 ∧
    count natParams (ctorIlist natParams [1, 1, 2, 3]) 4 = 0 :=
  ⟨by decide,
    (ctorIlist_spec natParams (by decide) [1, 1, 2, 3]).1.trans (by decide),
    (ctorIlist_spec natParams (by decide) [1, 1, 2, 3]).2.1 1 (by decide),
    (ctorIlist_spec natParams (by decide) [1, 1, 2, 3]).2.2 4 (by decide)⟩

/-- C18: every reachable object satisfies the representation invariant: the bucket array has
`table_size` buckets, no two nodes of the table hold equal keys, every node in the chain of
bucket `i` holds a key with `hasher(key) % table_size == i`, and `current_size` is the total
number of nodes of the chains. -/
theorem representation_invariant (P : Params Key) (hN : 0 < P.N) (s : ADS_set Key)
    (hs : Reachable P s) :
    s.table.length = s.table_size ∧
    s.table.flatten.Nodup ∧
    (∀ i k, i < s.table_size → k ∈ bucket s i → P.hasher k % s.table_size = i) ∧
    s.current_size = nodes s ∧
    s.current_size = s.table.flatten.length := by
  have hi := Reachable.inv P hN hs
  refine ⟨hi.len, nodup_flatten P hi, fun i k _ hk => hi.home i k hk, ?_, ?_⟩
  · rw [nodes_eq hi.len, length_flatten_eq P hi]
  · rw [length_flatten_eq P hi]

/-- Witness for C18: the set left after a range insertion that grows the table. -/
theorem representation_invariant_witness :
    0 < natParams.N ∧ Reachable natParams (ctorRange natParams [0, 7, 14, 21, 28, 3]) ∧
    (ctorRange natParams [0, 7, 14, 21, 28, 3]).table.length
      = (ctorRange natParams [0, 7, 14, 21, 28, 3]).table_size ∧
    (ctorRange natParams [0, 7, 14, 21, 28, 3]).table.flatten.Nodup ∧
    (∀ i k, i < (ctorRange natParams [0, 7, 14, 21, 28, 3]).table_size →
      k ∈ bucket (ctorRange natParams [0, 7, 14, 21, 28, 3]) i →
      natParams.hasher k % (ctorRange natParams [0, 7, 14, 21, 28, 3]).table_size = i) ∧
    (ctorRange natParams [0, 7, 14, 21, 28, 3]).current_size
      = nodes (ctorRange natParams [0, 7, 14, 21, 28, 3]) ∧
    (ctorRange natParams [0, 7, 14, 21, 28, 3]).current_size
      = (ctorRange natParams [0, 7, 14, 21, 28, 3]).table.flatten.length :=
  ⟨by decide, Reachable.ctorRange _,
    representation_invariant natParams (by decide) _ (Reachable.ctorRange _)⟩

/-! ## `rehash` on a well-formed object, and the unlink loop of `erase` -/

section Rehash

variable (P : Params Key)

theorem mem_bucket_lt {s : ADS_set Key} {i : Nat} {k : Key} (h : k ∈ bucket s i) :
    i < s.table.length := by
  by_contra hc
  have : bucket s i = [] := by
    simp [bucket, List.getD_eq_getElem?_getD, List.getElem?_eq_none (Nat.le_of_not_lt hc)]
  rw [this] at h
  simp at h

theorem bucket_eq_getElem (s : ADS_set Key) (i : Nat) (hi : i < s.table.length) :
    bucket s i = s.table[i] := by
  simp [bucket, List.getD_eq_getElem?_getD, List.getElem?_eq_getElem hi]

/-- Membership in the table against `count`, from the placement of the keys alone. -/
theorem mem_flatten_iff_of_home {s : ADS_set Key}
    (hhome : ∀ i k, k ∈ bucket s i → P.hasher k % s.table_size = i) (key : Key) :
    key ∈ s.table.flatten ↔ count P s key = 1 := by
  rw [count_eq_one_iff, List.mem_flatten]
  constructor
  · rintro ⟨c, hc, hk⟩
    obtain ⟨i, hi, rfl⟩ := List.getElem_of_mem hc
    have hb := bucket_eq_getElem s i hi
    have : hash P s key = i := hhome i key (by rw [hb]; exact hk)
    rw [this, hb]
    exact hk
  · intro hk
    have hlt := mem_bucket_lt hk
    refine ⟨s.table[hash P s key], List.getElem_mem _, ?_⟩
    rw [← bucket_eq_getElem s _ hlt]
    exact hk

theorem count_rehash_of_home (hN : 0 < P.N) {s : ADS_set Key}
    (hlen : s.table.length = s.table_size)
    (hhome : ∀ i k, k ∈ bucket s i → P.hasher k % s.table_size = i) (n : Nat) (j : Key) :
    count P (rehash P s n) j = count P s j := by
  rw [rehash_eq, count_foldl_add P (fresh_inv P hN _ (Nat.le_max_left _ _)), count_fresh,
    range_buckets hlen]
  by_cases h : j ∈ s.table.flatten
  · simp [h, (mem_flatten_iff_of_home P hhome j).1 h]
  · simp only [h, if_false]
    rcases count_le_one P s j with h0 | h1
    · exact h0.symm
    · exact absurd ((mem_flatten_iff_of_home P hhome j).2 h1) h

end Rehash

/-- The effect of `rehash(n)` on a well-formed object, for any load-factor arithmetic. -/
theorem rehash_wellformed (P : Params Key) (hN : 0 < P.N) (s : ADS_set Key) (n : Nat)
    (hlen : s.table.length = s.table_size) (hnodup : s.table.flatten.Nodup)
    (hhome : ∀ i k, k ∈ bucket s i → P.hasher k % s.table_size = i)
    (hcard : s.current_size = s.table.flatten.length) :
    (rehash P s n).table_size = max P.N (max n (P.quot s.current_size)) ∧
    (rehash P s n).table.length = (rehash P s n).table_size ∧
    (∀ k, count P (rehash P s n) k = count P s k) ∧
    (∀ k, k ∈ (rehash P s n).table.flatten ↔ k ∈ s.table.flatten) ∧
    (rehash P s n).current_size = s.current_size ∧
    (rehash P s n).table.flatten.Nodup ∧
    (∀ i k, k ∈ bucket (rehash P s n) i → P.hasher k % (rehash P s n).table_size = i) := by
  have hi := rehash_inv P hN s n
  have hcnt := count_rehash_of_home P hN hlen hhome n
  have hmem : ∀ k, k ∈ (rehash P s n).table.flatten ↔ k ∈ s.table.flatten := by
    intro k
    rw [mem_flatten_iff P hi, mem_flatten_iff_of_home P hhome, hcnt k]
  refine ⟨rehash_table_size P s n, hi.len, hcnt, hmem, ?_, nodup_flatten P hi,
    fun i k hk => hi.home i k hk⟩
  rw [← length_flatten_eq P hi, hcard]
  apply List.Perm.length_eq
  rw [List.perm_ext_iff_of_nodup (nodup_flatten P hi) hnodup]
  exact hmem

theorem unlink_decomp (key : Key) (rest : List Key) (help : Key) (h1 : help ≠ key)
    (h2 : key ∈ rest) :
    ∃ pre post, pre ≠ [] ∧ key ∉ pre ∧ help :: rest = pre ++ key :: post ∧
      unlinkAfter key (help :: rest) = some (pre ++ post) ∧
      unlinkRounds key pre.length (help :: rest) = some (some (pre ++ post)) := by
  induction rest generalizing help with
  | nil => simp at h2
  | cons head rest ih =>
    by_cases hh : head = key
    · subst hh
      refine ⟨[help], rest, by simp, by simpa using Ne.symm h1, rfl, ?_, ?_⟩
      · simp [unlinkAfter]
      · simp [unlinkRounds]
    · have hmem : key ∈ rest := by
        rcases List.mem_cons.1 h2 with h3 | h3
        · exact absurd h3.symm hh
        · exact h3
      obtain ⟨pre, post, _, hnot, hsplit, hu, hr⟩ := ih head hh hmem
      refine ⟨help :: pre, post, by simp, ?_, ?_, ?_, ?_⟩
      · simp [Ne.symm h1, hnot]
      · rw [hsplit]
        rfl
      · rw [unlinkAfter]
        simp [hh, hu]
      · rw [List.length_cons, unlinkRounds]
        simp [hh, hr]

/-- C20: when `erase(k)` enters its interior-removal loop (the set contains `k` and the head of
bucket `hash(k)` holds another key), the chain splits as `pre ++ k :: post` with `pre` non-empty
and free of `k`; the loop runs `pre.length` rounds, fewer than the chain has nodes, never reads
`head->key` on a null `head`, and leaves the chain `pre ++ post`; `erase` returns `1`. -/
theorem erase_loop_no_null (P : Params Key) (s : ADS_set Key) (k : Key)
    (hk : count P s k = 1) (hhead : (bucket s (hash P s k)).head? ≠ some k) :
    ∃ pre post, pre ≠ [] ∧ k ∉ pre ∧ bucket s (hash P s k) = pre ++ k :: post ∧
      unlinkAfter k (bucket s (hash P s k)) = some (pre ++ post) ∧
      unlinkRounds k pre.length (bucket s (hash P s k)) = some (some (pre ++ post)) ∧
      pre.length < (bucket s (hash P s k)).length ∧
      ∃ s1, erase P s k = some (s1, 1) := by
  have hmem := (count_eq_one_iff P s k).1 hk
  cases hb : bucket s (hash P s k) with
  | nil => rw [hb] at hmem; simp at hmem
  | cons head rest =>
    rw [hb] at hmem hhead
    have hne : head ≠ k := by
      intro hc
      exact hhead (by simp [hc])
    have hrest : k ∈ rest := by
      rcases List.mem_cons.1 hmem with h3 | h3
      · exact absurd h3.symm hne
      · exact h3
    obtain ⟨pre, post, h1, h2, h3, h4, h5⟩ := unlink_decomp k rest head hne hrest
    refine ⟨pre, post, h1, h2, h3, h4, h5, ?_, ?_⟩
    · rw [h3]
      simp
    · exact ⟨_, erase_of_present P hk⟩

/-- Witness for C20: erasing the tail node `1` of the chain `22, 15, 8, 1`. -/
theorem erase_loop_no_null_witness :
    count natParams (ctorIlist natParams [1, 8, 15, 22]) 1 = 1 ∧
    (bucket (ctorIlist natParams [1, 8, 15, 22])
      (hash natParams (ctorIlist natParams [1, 8, 15, 22]) 1)).head? ≠ some 1 ∧
    ∃ pre post, pre ≠ [] ∧ 1 ∉ pre ∧
      bucket (ctorIlist natParams [1, 8, 15, 22])
        (hash natParams (ctorIlist natParams [1, 8, 15, 22]) 1) = pre ++ 1 :: post ∧
      unlinkAfter 1 (bucket (ctorIlist natParams [1, 8, 15, 22])
        (hash natParams (ctorIlist natParams [1, 8, 15, 22]) 1)) = some (pre ++ post) ∧
      unlinkRounds 1 pre.length (bucket (ctorIlist natParams [1, 8, 15, 22])
        (hash natParams (ctorIlist natParams [1, 8, 15, 22]) 1)) = some (some (pre ++ post)) ∧
      pre.length < (bucket (ctorIlist natParams [1, 8, 15, 22])
        (hash natParams (ctorIlist natParams [1, 8, 15, 22]) 1)).length ∧
      ∃ s1, erase natParams (ctorIlist natParams [1, 8, 15, 22]) 1 = some (s1, 1) :=
  ⟨by decide, by decide,
    erase_loop_no_null natParams (ctorIlist natParams [1, 8, 15, 22]) 1 (by decide) (by decide)⟩

/-! ## Order of the traversal -/

section Order

variable (P : Params Key)

theorem skipLoop_least (T : List (List Key)) (fuel p : Nat) (h : p + fuel = T.length) (m : Nat)
    (h1 : p ≤ m) (h2 : m < Iterator.skipLoop T T.length fuel p) : T.getD m [] = [] := by
  induction fuel generalizing p with
  | zero =>
    have e : Iterator.skipLoop T T.length 0 p = p := rfl
    rw [e] at h2
    omega
  | succ fuel ih =>
    have hp : p < T.length := by omega
    by_cases hc : T.getD p [] = []
    · have e : Iterator.skipLoop T T.length (fuel + 1) p
          = Iterator.skipLoop T T.length fuel (p + 1) := by
        rw [Iterator.skipLoop, if_pos ⟨hp, hc⟩]
      rw [e] at h2
      by_cases hm : m = p
      · rw [hm]
        exact hc
      · exact ih (p + 1) (by omega) (by omega) h2
    · have e : Iterator.skipLoop T T.length (fuel + 1) p = p := by
        rw [Iterator.skipLoop, if_neg (fun hcon => hc hcon.2)]
      rw [e] at h2
      omega

/-- Where `skip` stops: at the first non-empty bucket from `p` on, or at the end of the array. -/
theorem skipLoop_eq (T : List (List Key)) (p q : Nat) (hp : p ≤ q) (hq : q ≤ T.length)
    (hempty : ∀ m, p ≤ m → m < q → T.getD m [] = [])
    (hstop : q < T.length → T.getD q [] ≠ []) :
    Iterator.skipLoop T T.length (T.length - p) p = q := by
  obtain ⟨s1, s2, _, s4⟩ := skipLoop_spec T (T.length - p) p (by omega)
  have s5 := skipLoop_least T (T.length - p) p (by omega)
  generalize Iterator.skipLoop T T.length (T.length - p) p = r at s1 s2 s4 s5
  rcases Nat.lt_trichotomy r q with hlt | heq | hgt
  · exact absurd (hempty r s1 hlt) (s4 (by omega))
  · exact heq
  · exact absurd (s5 q hp hgt) (hstop (by omega))

theorem next_same_chain {it : Iterator Key} {k : Key} {rest : List Key}
    (hc : it.current = k :: rest) (hrest : rest ≠ []) :
    Iterator.next it = some { it with current := rest } := by
  simp [Iterator.next, hc, hrest]

theorem next_last_node {it : Iterator Key} {k : Key} (hc : it.current = [k])
    (hts : it.table_size = it.table.length) (q : Nat)
    (hq : Iterator.skipLoop it.table it.table.length (it.table.length - (it.position + 1))
      (it.position + 1) = q) :
    Iterator.next it
      = if q = it.table.length then some ⟨[], it.table, q, it.table.length⟩
        else some ⟨it.table.getD q [], it.table, q, it.table.length⟩ := by
  simp only [Iterator.next, hc, ne_eq, not_true_eq_false, if_false, Iterator.skip, hts, hq]

end Order

/-- C19: on a reachable set, the keys visited from `begin()` to `end()` are the chains of the
buckets `0, 1, ..., table_size - 1` in this order, each read from head to tail.  A step of
`operator++` from a node with a successor moves to that successor in the same bucket; from the
last node of a chain it moves to the head of the next non-empty bucket, and when no bucket after
it is non-empty it becomes the exhausted iterator with a null `current`. -/
theorem iteration_order (P : Params Key) (hN : 0 < P.N) (s : ADS_set Key)
    (hs : Reachable P s) :
    toList P s = ((List.range s.table_size).map (bucket s)).flatten ∧
    (∀ j, j ≤ size s → ∃ it, Iterator.advance j (begin P s) = some it ∧
      Iterator.deref it = (((List.range s.table_size).map (bucket s)).flatten)[j]?) ∧
    (∀ (it : Iterator Key) (k : Key) (rest : List Key),
      it.table = s.table → it.table_size = s.table_size → it.position < s.table_size →
      it.current = k :: rest →
      (rest ≠ [] → Iterator.next it = some { it with current := rest }) ∧
      (rest = [] → ∀ q, it.position < q → q < s.table_size → bucket s q ≠ [] →
        (∀ m, it.position < m → m < q → bucket s m = []) →
        Iterator.next it = some ⟨bucket s q, s.table, q, s.table_size⟩) ∧
      (rest = [] → (∀ m, it.position < m → m < s.table_size → bucket s m = []) →
        Iterator.next it = some ⟨[], s.table, s.table_size, s.table_size⟩ ∧
        Iterator.eq ⟨[], s.table, s.table_size, s.table_size⟩ (end_ P s) = true)) := by
  have hi := Reachable.inv P hN hs
  have hlen := hi.len
  rw [range_buckets hlen]
  refine ⟨toList_eq P hlen, ?_, ?_⟩
  · intro j hj
    obtain ⟨it, ha, hp⟩ :=
      advance_pos j (begin_pos P hlen) (by rw [length_flatten_eq P hi]; exact hj)
    exact ⟨it, ha, by rw [(pos_deref hp).1, List.head?_drop]⟩
  · intro it k rest h1 h2 h3 h4
    refine ⟨fun hrest => next_same_chain h4 hrest, ?_, ?_⟩
    · intro hrest q hq1 hq2 hq3 hq4
      subst hrest
      have hts : it.table_size = it.table.length := by rw [h1, h2, hlen]
      have hq : Iterator.skipLoop it.table it.table.length
          (it.table.length - (it.position + 1)) (it.position + 1) = q := by
        rw [h1]
        exact skipLoop_eq s.table (it.position + 1) q (by omega) (by omega)
          (fun m hm1 hm2 => hq4 m (by omega) hm2) (fun _ => hq3)
      rw [next_last_node h4 hts q hq, h1, hlen, if_neg (by omega)]
      rfl
    · intro hrest hall
      subst hrest
      have hts : it.table_size = it.table.length := by rw [h1, h2, hlen]
      have hq : Iterator.skipLoop it.table it.table.length
          (it.table.length - (it.position + 1)) (it.position + 1) = s.table_size := by
        rw [h1]
        exact skipLoop_eq s.table (it.position + 1) s.table_size (by omega) (by omega)
          (fun m hm1 hm2 => hall m (by omega) hm2) (fun hc => by omega)
      rw [next_last_node h4 hts s.table_size hq, h1, hlen, if_pos rfl]
      exact ⟨rfl, by simp [Iterator.eq, end_, Iterator.nil]⟩

/-- Witness for C19: the set built from `{1, 8, 15, 2, 3}`, whose traversal is `15, 8, 1, 2, 3`. -/
theorem iteration_order_witness :
    0 < natParams.N ∧ Reachable natParams (ctorIlist natParams [1, 8, 15, 2, 3]) ∧
    toList natParams (ctorIlist natParams [1, 8, 15, 2, 3]) = [15, 8, 1, 2, 3] ∧
    Iterator.next (⟨[1], (ctorIlist natParams [1, 8, 15, 2, 3]).table, 1, 7⟩ : Iterator Nat)
      = some ⟨[2], (ctorIlist natParams [1, 8, 15, 2, 3]).table, 2, 7⟩ :=
  ⟨by decide, Reachable.ctorIlist _,
    (iteration_order natParams (by decide) _ (Reachable.ctorIlist _)).1.trans (by decide),
    (((iteration_order natParams (by decide) (ctorIlist natParams [1, 8, 15, 2, 3])
      (Reachable.ctorIlist _)).2.2 ⟨[1], (ctorIlist natParams [1, 8, 15, 2, 3]).table, 1, 7⟩
      1 [] rfl (by decide) (by decide) rfl).2.1 rfl 2 (by decide) (by decide) (by decide)
      (fun m h1 h2 => by
        have h3 : 1 < m := h1
        omega)).trans (by decide)⟩

/-! ## The load-factor policy -/

section Load

variable (P : Params Key)

theorem growLoop_iterate (n : Nat) (fuel t : Nat) (h : 2 * n ≤ t + fuel) :
    ∃ k, growLoop P n fuel t = (fun x => x * 4 + 1)^[k] t ∧
      P.fits ((fun x => x * 4 + 1)^[k] t) n = true ∧
      ∀ j, j < k → P.fits ((fun x => x * 4 + 1)^[j] t) n = false := by
  induction fuel generalizing t with
  | zero =>
    exact ⟨0, rfl, P.fits_of_double _ _ (by simpa using h), fun j hj => by omega⟩
  | succ fuel ih =>
    by_cases hf : P.fits t n = true
    · refine ⟨0, ?_, hf, fun j hj => by omega⟩
      simp [growLoop, hf]
    · obtain ⟨k, h1, h2, h3⟩ := ih (t * 4 + 1) (by omega)
      refine ⟨k + 1, ?_, ?_, ?_⟩
      · rw [growLoop, if_neg hf, h1, Function.iterate_succ_apply]
      · rw [Function.iterate_succ_apply]
        exact h2
      · intro j hj
        cases j with
        | zero => simpa using hf
        | succ j =>
          rw [Function.iterate_succ_apply]
          exact h3 j (by omega)

theorem le_iterate_grow (k t : Nat) : t ≤ (fun x => x * 4 + 1)^[k] t := by
  induction k generalizing t with
  | zero => exact le_refl _
  | succ k ih =>
    rw [Function.iterate_succ_apply]
    exact le_trans (by omega) (ih (t * 4 + 1))

theorem le_growLoop (n fuel t : Nat) : t ≤ growLoop P n fuel t := by
  induction fuel generalizing t with
  | zero => exact le_refl _
  | succ fuel ih =>
    rw [growLoop]
    split
    · exact le_refl _
    · exact le_trans (by omega) (ih (t * 4 + 1))

theorem reserve_current (hN : 0 < P.N) {s : ADS_set Key} (hs : Inv P s) (n : Nat) :
    (reserve P s n).current_size = s.current_size := reserve_current_size P hN hs n

end Load


/-! ## Rounding to `float` and `double` -/

section Rounding

theorem excess_small (p fuel a : Nat) (h : a < 2 ^ p) : excess p fuel a = 0 := by
  cases fuel with
  | zero => rfl
  | succ fuel => rw [excess, if_pos h]

theorem excess_spec (p : Nat) (hp : 1 ≤ p) (fuel a : Nat) (h : a ≤ fuel) :
    a < 2 ^ (p + excess p fuel a) ∧
      (0 < excess p fuel a → 2 ^ (p - 1 + excess p fuel a) ≤ a) := by
  induction fuel generalizing a with
  | zero =>
    have : a = 0 := by omega
    subst this
    simp [excess]
  | succ fuel ih =>
    by_cases ha : a < 2 ^ p
    · rw [excess, if_pos ha]
      exact ⟨ha, fun h0 => absurd h0 (by omega)⟩
    · rw [excess, if_neg ha]
      have h2 : 2 ≤ 2 ^ p := by
        calc 2 = 2 ^ 1 := rfl
          _ ≤ 2 ^ p := Nat.pow_le_pow_right (by decide) hp
      obtain ⟨i1, i2⟩ := ih (a / 2) (by omega)
      constructor
      · rw [← Nat.add_assoc, Nat.pow_succ]
        omega
      · intro _
        by_cases hs : 0 < excess p fuel (a / 2)
        · have := i2 hs
          rw [← Nat.add_assoc, Nat.pow_succ]
          omega
        · have hs0 : excess p fuel (a / 2) = 0 := by omega
          rw [hs0]
          have : p - 1 + (0 + 1) = p := by omega
          rw [this]
          omega

theorem excess_mono (p : Nat) (hp : 1 ≤ p) {a b : Nat} (h : a ≤ b) :
    excess p a a ≤ excess p b b := by
  obtain ⟨_, a2⟩ := excess_spec p hp a a (le_refl _)
  obtain ⟨b1, _⟩ := excess_spec p hp b b (le_refl _)
  by_contra hc
  have hpos : 0 < excess p a a := by omega
  have hlt : 2 ^ (p - 1 + excess p a a) < 2 ^ (p + excess p b b) :=
    lt_of_le_of_lt (le_trans (a2 hpos) h) b1
  have := (Nat.pow_lt_pow_iff_right (by decide : 1 < 2)).1 hlt
  omega

/-- The rounded value is one of the two neighbours with `p` significant bits. -/
theorem roundBits_cases (p q : Nat) (sticky : Bool) :
    (excess p q q = 0 ∧ roundBits p q sticky = q) ∨
    (0 < excess p q q ∧
      (roundBits p q sticky = q / 2 ^ excess p q q * 2 ^ excess p q q ∨
        roundBits p q sticky = (q / 2 ^ excess p q q + 1) * 2 ^ excess p q q)) := by
  unfold roundBits
  simp only []
  by_cases hs : excess p q q = 0
  · left
    simp [hs]
  · right
    refine ⟨by omega, ?_⟩
    simp only [hs, if_false]
    split
    · exact Or.inr rfl
    · exact Or.inl rfl

theorem roundBits_bounds (p : Nat) (hp : 1 ≤ p) (q : Nat) (sticky : Bool) :
    roundBits p q sticky ≤ q + q / 2 ^ (p - 1) ∧
      q ≤ roundBits p q sticky + q / 2 ^ (p - 1) := by
  obtain ⟨_, e2⟩ := excess_spec p hp q q (le_refl _)
  rcases roundBits_cases p q sticky with ⟨_, h⟩ | ⟨hs, h⟩
  · rw [h]
    exact ⟨Nat.le_add_right _ _, Nat.le_add_right _ _⟩
  · have hlow := e2 hs
    generalize excess p q q = s at hlow h
    have hpos : 0 < 2 ^ s := Nat.two_pow_pos _
    have hd : 2 ^ s ≤ q / 2 ^ (p - 1) := by
      rw [Nat.le_div_iff_mul_le (Nat.two_pow_pos _), ← Nat.pow_add, Nat.add_comm]
      exact hlow
    have hm1 : q / 2 ^ s * 2 ^ s ≤ q := Nat.div_mul_le_self q (2 ^ s)
    have hm2 : q < (q / 2 ^ s + 1) * 2 ^ s := by
      rw [Nat.mul_comm]
      exact Nat.lt_mul_div_succ q hpos
    have hm3 : (q / 2 ^ s + 1) * 2 ^ s = q / 2 ^ s * 2 ^ s + 2 ^ s := by
      rw [Nat.add_mul, Nat.one_mul]
    rcases h with h | h <;> rw [h] <;> omega

theorem roundBits_small (p q : Nat) (sticky : Bool) (h : q < 2 ^ p) :
    roundBits p q sticky = q := by
  simp [roundBits, excess_small p q q h]

theorem roundBits_le_pow (p : Nat) (hp : 1 ≤ p) (q : Nat) (sticky : Bool) :
    roundBits p q sticky ≤ 2 ^ (p + excess p q q) := by
  obtain ⟨e1, _⟩ := excess_spec p hp q q (le_refl _)
  rcases roundBits_cases p q sticky with ⟨_, h⟩ | ⟨_, h⟩
  · rw [h]
    exact Nat.le_of_lt e1
  · generalize excess p q q = s at e1 h
    have hm : q / 2 ^ s < 2 ^ p := by
      rw [Nat.div_lt_iff_lt_mul (Nat.two_pow_pos _), ← Nat.pow_add]
      exact e1
    have h1 : (q / 2 ^ s + 1) * 2 ^ s ≤ 2 ^ p * 2 ^ s := Nat.mul_le_mul_right _ hm
    have h2 : q / 2 ^ s * 2 ^ s ≤ (q / 2 ^ s + 1) * 2 ^ s :=
      Nat.mul_le_mul_right _ (Nat.le_succ _)
    rw [Nat.pow_add]
    rcases h with h | h <;> rw [h] <;> omega

theorem pow_le_roundBits (p : Nat) (hp : 1 ≤ p) (q : Nat) (sticky : Bool)
    (hs : 0 < excess p q q) : 2 ^ (p - 1 + excess p q q) ≤ roundBits p q sticky := by
  obtain ⟨_, e2⟩ := excess_spec p hp q q (le_refl _)
  have hlow := e2 hs
  rcases roundBits_cases p q sticky with ⟨h0, _⟩ | ⟨_, h⟩
  · omega
  · generalize excess p q q = s at hlow h
    have hm : 2 ^ (p - 1) ≤ q / 2 ^ s := by
      rw [Nat.le_div_iff_mul_le (Nat.two_pow_pos _), ← Nat.pow_add]
      exact hlow
    have h1 : 2 ^ (p - 1) * 2 ^ s ≤ q / 2 ^ s * 2 ^ s := Nat.mul_le_mul_right _ hm
    have h2 : q / 2 ^ s * 2 ^ s ≤ (q / 2 ^ s + 1) * 2 ^ s :=
      Nat.mul_le_mul_right _ (Nat.le_succ _)
    rw [Nat.pow_add]
    rcases h with h | h <;> rw [h] <;> omega

/-- Rounding an integer to `p` significant bits is monotone. -/
theorem roundBits_mono (p : Nat) (hp : 1 ≤ p) {a b : Nat} (h : a ≤ b) :
    roundBits p a false ≤ roundBits p b false := by
  have hs := excess_mono p hp h
  rcases Nat.lt_or_eq_of_le hs with hlt | heq
  · have h1 := roundBits_le_pow p hp a false
    have h2 := pow_le_roundBits p hp b false (by omega)
    have h3 : 2 ^ (p + excess p a a) ≤ 2 ^ (p - 1 + excess p b b) :=
      Nat.pow_le_pow_right (by decide) (by omega)
    omega
  · unfold roundBits
    simp only []
    rw [← heq]
    generalize excess p a a = s
    by_cases hs0 : s = 0
    · simp [hs0, h]
    · simp only [hs0, if_false, Bool.false_eq_true, false_or]
      have hpos : 0 < 2 ^ s := Nat.two_pow_pos _
      have hda := Nat.div_add_mod a (2 ^ s)
      have hdb := Nat.div_add_mod b (2 ^ s)
      have hmono : a / 2 ^ s ≤ b / 2 ^ s := Nat.div_le_div_right h
      have e1 : (a / 2 ^ s + 1) * 2 ^ s = a / 2 ^ s * 2 ^ s + 2 ^ s := by
        rw [Nat.add_mul, Nat.one_mul]
      have e2 : (b / 2 ^ s + 1) * 2 ^ s = b / 2 ^ s * 2 ^ s + 2 ^ s := by
        rw [Nat.add_mul, Nat.one_mul]
      have e3 : 2 ^ s * (a / 2 ^ s) = a / 2 ^ s * 2 ^ s := Nat.mul_comm _ _
      have e4 : 2 ^ s * (b / 2 ^ s) = b / 2 ^ s * 2 ^ s := Nat.mul_comm _ _
      have hra : a % 2 ^ s < 2 ^ s := Nat.mod_lt _ hpos
      have hrb : b % 2 ^ s < 2 ^ s := Nat.mod_lt _ hpos
      rcases Nat.lt_or_eq_of_le hmono with hml | hme
      · have hstep : (a / 2 ^ s + 1) * 2 ^ s ≤ b / 2 ^ s * 2 ^ s :=
          Nat.mul_le_mul_right _ hml
        split <;> split <;> omega
      · rw [← hme] at hdb e2 e4 ⊢
        split <;> split <;> omega

end Rounding

section FloatPolicy

theorem toFloat_mono {a b : Nat} (h : a ≤ b) : toFloat a ≤ toFloat b :=
  roundBits_mono 24 (by decide) h

/-- The load test of a table stays true for a larger table. -/
theorem fitsF32_mono_table {t t2 n : Nat} (h : t ≤ t2) (hf : fitsF32 t n = true) :
    fitsF32 t2 n = true := by
  simp only [fitsF32, decide_eq_true_eq] at hf ⊢
  have h1 : toFloat t * 11744051 * 2 ≤ toFloat t2 * 11744051 * 2 :=
    Nat.mul_le_mul_right _ (Nat.mul_le_mul_right _ (toFloat_mono h))
  exact le_trans hf (roundBits_mono 24 (by decide) h1)

/-- The load test of a table stays true for fewer elements. -/
theorem fitsF32_anti {t n n2 : Nat} (h : n2 ≤ n) (hf : fitsF32 t n = true) :
    fitsF32 t n2 = true := by
  simp only [fitsF32, decide_eq_true_eq] at hf ⊢
  exact le_trans (Nat.mul_le_mul_right _ (toFloat_mono h)) hf

/-- What the binary32 load test says about the integers: `n <= t * 0.7 * (1 + 2^-21)`. -/
theorem fitsF32_slack {t n : Nat} (hf : fitsF32 t n = true) :
    10 * n * 2 ^ 21 ≤ 7 * t * (2 ^ 21 + 1) := by
  have b1 := roundBits_bounds 24 (by decide) n false
  have b2 := roundBits_bounds 24 (by decide) t false
  have b3 := roundBits_bounds 24 (by decide) (toFloat t * 11744051 * 2) false
  simp only [fitsF32, toFloat, decide_eq_true_eq] at *
  generalize roundBits 24 (roundBits 24 t false * 11744051 * 2) false = r at *
  generalize roundBits 24 t false = b at *
  generalize roundBits 24 n false = a at *
  norm_num at b1 b2 b3 hf ⊢
  omega

/-- The binary32 quotient against the exact one: it is `c / 0.7` up to `1 + c * 2^-18 / 7`. -/
theorem quotF32_bounds (c : Nat) :
    7 * quotF32 c ≤ 10 * c + c / 2 ^ 18 ∧ 10 * c ≤ 7 * (quotF32 c + 1) + c / 2 ^ 18 := by
  have b1 := roundBits_bounds 24 (by decide) c false
  have b2 := roundBits_bounds 24 (by decide) (toFloat c * 2 ^ 49 / 11744051)
    (decide (toFloat c * 2 ^ 49 % 11744051 ≠ 0))
  simp only [quotF32, toFloat] at *
  generalize roundBits 24 (roundBits 24 c false * 2 ^ 49 / 11744051)
    (decide (roundBits 24 c false * 2 ^ 49 % 11744051 ≠ 0)) = r at *
  generalize roundBits 24 c false = a at *
  norm_num at b1 b2 ⊢
  omega

/-- What the binary64 shrink test says about the integers. -/
theorem sparseF64_bound {c t : Nat} (h : sparseF64 c t = true) : 4 * c ≤ t := by
  have b1 := roundBits_bounds 53 (by decide) c false
  have b2 := roundBits_bounds 53 (by decide) t false
  have b3 := roundBits_bounds 53 (by decide) (toDouble t * 7205759403792794 * 2) false
  simp only [sparseF64, toDouble, decide_eq_true_eq] at *
  generalize roundBits 53 (roundBits 53 t false * 7205759403792794 * 2) false = r at *
  generalize roundBits 53 t false = b at *
  generalize roundBits 53 c false = a at *
  norm_num at b1 b2 b3 h ⊢
  omega

end FloatPolicy
theorem insertAll_snoc (P : Params Key) (l : List Key) (k : Key) :
    insertAll P (l ++ [k]) = (insert P (insertAll P l) k).1 := by
  simp [insertAll, List.foldl_append]

theorem insertAll_size (P : Params Key) (hN : 0 < P.N) (l : List Key) (hl : l.Nodup) :
    (insertAll P l).current_size = l.length := by
  have hi := insertAll_inv P hN l
  rw [← length_flatten_eq P hi]
  apply List.Perm.length_eq
  rw [List.perm_ext_iff_of_nodup (nodup_flatten P hi) hl]
  intro k
  rw [mem_flatten_iff P hi, count_insertAll P hN l k]
  by_cases h : k ∈ l
  · simp [h]
  · simp [h]

section Tracking

variable (P : Params Key)

theorem reserve_table_size_eq (s : ADS_set Key) (n : Nat) :
    (reserve P s n).table_size
      = if P.fits s.table_size n = true then s.table_size
        else max P.N (max (growLoop P n (2 * n) s.table_size) (P.quot s.current_size)) := by
  unfold reserve
  split
  · rfl
  · exact rehash_table_size P s _

theorem insert_table_size (hN : 0 < P.N) {s : ADS_set Key} (hs : Inv P s) {k : Key}
    (hk : count P s k = 0) :
    (insert P s k).1.table_size = (reserve P s (s.current_size + 1)).table_size ∧
    (insert P s k).1.current_size = s.current_size + 1 := by
  rw [insert_of_absent P hk]
  simp only []
  rw [add_table_size, add_current_size, count_reserve P hN hs, hk,
    reserve_current_size P hN hs]
  exact ⟨rfl, rfl⟩

theorem insertAll_reachable (P : Params Key) (l : List Key) : Reachable P (insertAll P l) := by
  have h : insertAll P l = ctorRange P l := by
    unfold insertAll ctorRange
    rw [insertRange_eq]
  rw [h]
  exact Reachable.ctorRange l

end Tracking

section RangeTracking

variable (P : Params Nat)

theorem insertAll_range_succ (m : Nat) :
    insertAll P (List.range (m + 1)) = (insert P (insertAll P (List.range m)) m).1 := by
  rw [List.range_succ, insertAll_snoc]

theorem insertAll_range_size (hN : 0 < P.N) (m : Nat) :
    (insertAll P (List.range m)).current_size = m := by
  rw [insertAll_size P hN _ (List.nodup_range m), List.length_range]

theorem count_range_next (hN : 0 < P.N) (m : Nat) :
    count P (insertAll P (List.range m)) m = 0 := by
  rw [count_insertAll P hN]
  simp

theorem range_table_succ (hN : 0 < P.N) (m : Nat) :
    (insertAll P (List.range (m + 1))).table_size
      = (reserve P (insertAll P (List.range m)) (m + 1)).table_size := by
  rw [insertAll_range_succ,
    (insert_table_size P hN (insertAll_inv P hN _) (count_range_next P hN m)).1,
    insertAll_range_size P hN]

/-- The table keeps its size while the load test passes. -/
theorem range_table_stay (hN : 0 < P.N) {a b t : Nat}
    (h0 : (insertAll P (List.range a)).table_size = t)
    (hf : ∀ n, a < n → n ≤ b → P.fits t n = true) (m : Nat) (h1 : a ≤ m) (h2 : m ≤ b) :
    (insertAll P (List.range m)).table_size = t := by
  induction m, h1 using Nat.le_induction with
  | base => exact h0
  | succ m hm ih =>
    have := ih (by omega)
    rw [range_table_succ P hN, reserve_table_size_eq, this, if_pos (hf (m + 1) (by omega) h2)]

/-- The table size after the insertion that fails the load test. -/
theorem range_table_grow (hN : 0 < P.N) {b t : Nat}
    (h0 : (insertAll P (List.range b)).table_size = t) (hf : P.fits t (b + 1) = false) :
    (insertAll P (List.range (b + 1))).table_size
      = max P.N (max (growLoop P (b + 1) (2 * (b + 1)) t) (P.quot b)) := by
  rw [range_table_succ P hN, reserve_table_size_eq, h0, insertAll_range_size P hN, hf]
  simp

end RangeTracking

/-- One stage of the growth of the set `0, 1, 2, ...` with `N = 7`: the table of size `t` holds up
to `b` keys and the next insertion takes it to size `t2`. -/
theorem nat_stage {a b t t2 : Nat}
    (h0 : (insertAll natParams (List.range a)).table_size = t) (hab : a ≤ b)
    (h1 : fitsF32 t b = true) (h2 : fitsF32 t (b + 1) = false)
    (h3 : max 7 (max (growLoop natParams (b + 1) (2 * (b + 1)) t) (quotF32 b)) = t2) :
    (insertAll natParams (List.range (b + 1))).table_size = t2 := by
  have hN : 0 < natParams.N := by decide
  have hb := range_table_stay natParams hN h0
    (fun n _ hn => fitsF32_anti hn h1) b hab (le_refl _)
  rw [range_table_grow natParams hN hb h2]
  exact h3

theorem nat_table_start : (insertAll natParams (List.range 0)).table_size = 7 := by decide

theorem nat_table_5 : (insertAll natParams (List.range 5)).table_size = 29 :=
  nat_stage nat_table_start (by decide) (by decide) (by decide) (by decide)

theorem nat_table_21 : (insertAll natParams (List.range 21)).table_size = 117 :=
  nat_stage nat_table_5 (by decide) (by decide) (by decide) (by decide)

theorem nat_table_82 : (insertAll natParams (List.range 82)).table_size = 469 :=
  nat_stage nat_table_21 (by decide) (by decide) (by decide) (by decide)

theorem nat_table_329 : (insertAll natParams (List.range 329)).table_size = 1877 :=
  nat_stage nat_table_82 (by decide) (by decide) (by decide) (by decide)

theorem nat_table_1314 : (insertAll natParams (List.range 1314)).table_size = 7509 :=
  nat_stage nat_table_329 (by decide) (by decide) (by decide) (by decide)

theorem nat_table_5257 : (insertAll natParams (List.range 5257)).table_size = 30037 :=
  nat_stage nat_table_1314 (by decide) (by decide) (by decide) (by decide)

theorem nat_table_21026 : (insertAll natParams (List.range 21026)).table_size = 120149 :=
  nat_stage nat_table_5257 (by decide) (by decide) (by decide) (by decide)

theorem nat_table_84105 : (insertAll natParams (List.range 84105)).table_size = 480597 :=
  nat_stage nat_table_21026 (by decide) (by decide) (by decide) (by decide)

theorem nat_table_336418 : (insertAll natParams (List.range 336418)).table_size = 1922389 :=
  nat_stage nat_table_84105 (by decide) (by decide) (by decide) (by decide)

theorem nat_table_1345673 : (insertAll natParams (List.range 1345673)).table_size = 7689557 :=
  nat_stage nat_table_336418 (by decide) (by decide) (by decide) (by decide)

/-- With `N = 7`, the set `0, ..., m - 1` built by single insertions has 7689557 buckets for
every `m` from 1345673 to 5382690. -/
theorem nat_table_large (m : Nat) (h1 : 1345673 ≤ m) (h2 : m ≤ 5382690) :
    (insertAll natParams (List.range m)).table_size = 7689557 :=
  range_table_stay natParams (by decide) nat_table_1345673
    (fun n _ hn => fitsF32_anti hn (by decide)) m h1 h2

/-! ## The load-factor policy in binary32 and binary64 -/

section FloatClaims

variable (hasher : Key → Nat) (N : Nat)

theorem float_fits (t n : Nat) : (floatParams hasher N).fits t n = fitsF32 t n := rfl

theorem float_quot (c : Nat) : (floatParams hasher N).quot c = quotF32 c := rfl

theorem float_sparse (c t : Nat) : (floatParams hasher N).sparse c t = sparseF64 c t := rfl

/-- After `reserve(n)` the table passes the load test of the source for `n`. -/
theorem reserve_fits_float (s : ADS_set Key) (n : Nat) :
    fitsF32 (reserve (floatParams hasher N) s n).table_size n = true := by
  rw [reserve_table_size_eq]
  by_cases hf : (floatParams hasher N).fits s.table_size n = true
  · rw [if_pos hf]
    exact hf
  · rw [if_neg hf]
    have hg := growLoop_fits (floatParams hasher N) n (2 * n) s.table_size (by omega)
    rw [float_fits] at hg
    exact fitsF32_mono_table
      (le_trans (Nat.le_max_left _ _) (Nat.le_max_right _ _)) hg

/-- The object `erase` leaves behind when the key is contained, for any load-factor arithmetic. -/
theorem erase_table_size_eq (P : Params Key) (hN : 0 < P.N) {s : ADS_set Key} (hs : Inv P s)
    {k : Key} (hk : count P s k = 1) :
    ∃ s1, erase P s k = some (s1, 1) ∧ s1.current_size = s.current_size - 1 ∧
      s1.table_size
        = if P.sparse (s.current_size - 1) s.table_size = true
          then max P.N (max (s.current_size - 1) (P.quot (s.current_size - 1)))
          else s.table_size := by
  have hu := unlinked_inv P hs hk
  rw [erase_of_present P hk]
  by_cases hsp : P.sparse (s.current_size - 1) s.table_size = true
  · have hsp2 : P.sparse (unlinked P s k).current_size (unlinked P s k).table_size = true := hsp
    refine ⟨rehash P (unlinked P s k) (unlinked P s k).current_size, by rw [if_pos hsp2],
      rehash_current_size P hN hu _, ?_⟩
    rw [if_pos hsp, rehash_table_size]
    rfl
  · have hsp2 : ¬ P.sparse (unlinked P s k).current_size (unlinked P s k).table_size = true :=
      hsp
    exact ⟨unlinked P s k, by rw [if_neg hsp2], rfl, by rw [if_neg hsp]; rfl⟩

end FloatClaims

/-- The load test of the source holds after `insert` of a new key. -/
theorem insert_fits_float (hasher : Key → Nat) (N : Nat) (hN : 0 < N) {s : ADS_set Key}
    (hi : Inv (floatParams hasher N) s) {k : Key} (hk : count (floatParams hasher N) s k = 0) :
    fitsF32 (insert (floatParams hasher N) s k).1.table_size
      (insert (floatParams hasher N) s k).1.current_size = true := by
  obtain ⟨e1, e2⟩ := insert_table_size (floatParams hasher N) hN hi hk
  rw [e1, e2]
  exact reserve_fits_float hasher N s (s.current_size + 1)

/-- C12, as stated, fails: with `N = 7`, the set `0, ..., 5382688` built by single insertions is
reachable and does not contain `5382689`; after `insert(5382689)` it holds 5382690 keys in
7689557 buckets, and `5382690 > 7689557 * 0.7 = 5382689.9`: the binary32 load test of `reserve`
accepts this table. -/
theorem load_bound_fails :
    Reachable natParams (insertAll natParams (List.range 5382689)) ∧
    count natParams (insertAll natParams (List.range 5382689)) 5382689 = 0 ∧
    (insert natParams (insertAll natParams (List.range 5382689)) 5382689).1.current_size
      = 5382690 ∧
    (insert natParams (insertAll natParams (List.range 5382689)) 5382689).1.table_size
      = 7689557 ∧
    ¬ 10 * (insert natParams (insertAll natParams (List.range 5382689)) 5382689).1.current_size
        ≤ 7 * (insert natParams (insertAll natParams (List.range 5382689)) 5382689).1.table_size
    := by
  have hN : 0 < natParams.N := by decide
  have h1 : (insert natParams (insertAll natParams (List.range 5382689)) 5382689).1.current_size
      = 5382690 := by
    rw [← insertAll_range_succ, insertAll_range_size natParams hN]
  have h2 : (insert natParams (insertAll natParams (List.range 5382689)) 5382689).1.table_size
      = 7689557 := by
    rw [← insertAll_range_succ]
    exact nat_table_large 5382690 (by decide) (by decide)
  refine ⟨insertAll_reachable natParams _, count_range_next natParams hN _, h1, h2, ?_⟩
  rw [h1, h2]
  decide

/-- C12, amended: `insert(k)` of a key not contained in a reachable set, whatever the load of
that set, leaves `size()` one larger and a table that passes the load test of the source,
`table_size * max_lf >= current_size` evaluated in binary32 with `max_lf = 0.7f`; this bounds
`current_size` by `table_size * 0.7 * (1 + 2^-21)`.  After inserting the keys `0..99` one by one
into an empty set with `N = 7`, whatever the hash function, `size()` is `100`,
`table_size * 0.7 >= 100`, and each of the hundred keys has `count == 1` and is found by
`find`. -/
theorem insert_load_test :
    (∀ (hasher : Key → Nat) (N : Nat) (s : ADS_set Key) (k : Key), 0 < N →
      Reachable (floatParams hasher N) s → count (floatParams hasher N) s k = 0 →
      size (insert (floatParams hasher N) s k).1 = size s + 1 ∧
      fitsF32 (insert (floatParams hasher N) s k).1.table_size
        (insert (floatParams hasher N) s k).1.current_size = true ∧
      10 * (insert (floatParams hasher N) s k).1.current_size * 2 ^ 21
        ≤ 7 * (insert (floatParams hasher N) s k).1.table_size * (2 ^ 21 + 1)) ∧
    (∀ h : Nat → Nat,
      size (insertAll (floatParams h 7) (List.range 100)) = 100 ∧
      10 * 100 ≤ 7 * (insertAll (floatParams h 7) (List.range 100)).table_size ∧
      ∀ j, j < 100 →
        count (floatParams h 7) (insertAll (floatParams h 7) (List.range 100)) j = 1 ∧
        Iterator.eq (find (floatParams h 7) (insertAll (floatParams h 7) (List.range 100)) j)
          (end_ (floatParams h 7) (insertAll (floatParams h 7) (List.range 100))) = false) := by
  constructor
  · intro hasher N s k hN hs hk
    have hi := Reachable.inv _ hN hs
    have hf := insert_fits_float hasher N hN hi hk
    exact ⟨(insert_table_size (floatParams hasher N) hN hi hk).2, hf, fitsF32_slack hf⟩
  · intro h
    have hN : 0 < (floatParams h 7).N := Nat.succ_pos 6
    have hsz : (insertAll (floatParams h 7) (List.range 100)).current_size = 100 :=
      insertAll_range_size _ hN 100
    refine ⟨hsz, ?_, ?_⟩
    · have hf := insert_fits_float h 7 (Nat.succ_pos 6)
        (insertAll_inv (floatParams h 7) hN (List.range 99)) (count_range_next _ hN 99)
      have e : insertAll (floatParams h 7) (List.range 100)
          = (insert (floatParams h 7) (insertAll (floatParams h 7) (List.range 99)) 99).1 :=
        insertAll_range_succ (floatParams h 7) 99
      rw [← e, hsz] at hf
      have := fitsF32_slack hf
      omega
    · intro j hj
      have hc : count (floatParams h 7) (insertAll (floatParams h 7) (List.range 100)) j = 1 := by
        rw [count_insertAll _ hN]
        simp [hj]
      exact ⟨hc, find_ne_end _ hc⟩

/-- Witness for C12: inserting `8` into the overloaded seven-bucket set built from the
initializer list `{0, ..., 7}`. -/
theorem insert_load_test_witness :
    0 < 7 ∧ Reachable natParams (ctorIlist natParams [0, 1, 2, 3, 4, 5, 6, 7]) ∧
    count natParams (ctorIlist natParams [0, 1, 2, 3, 4, 5, 6, 7]) 8 = 0 ∧
    size (insert natParams (ctorIlist natParams [0, 1, 2, 3, 4, 5, 6, 7]) 8).1
      = size (ctorIlist natParams [0, 1, 2, 3, 4, 5, 6, 7]) + 1 ∧
    fitsF32 (insert natParams (ctorIlist natParams [0, 1, 2, 3, 4, 5, 6, 7]) 8).1.table_size
      (insert natParams (ctorIlist natParams [0, 1, 2, 3, 4, 5, 6, 7]) 8).1.current_size
      = true ∧
    10 * (insert natParams (ctorIlist natParams [0, 1, 2, 3, 4, 5, 6, 7]) 8).1.current_size
        * 2 ^ 21
      ≤ 7 * (insert natParams (ctorIlist natParams [0, 1, 2, 3, 4, 5, 6, 7]) 8).1.table_size
        * (2 ^ 21 + 1) :=
  ⟨by decide, Reachable.ctorIlist _, by decide,
    insert_load_test.1 (fun k => k) 7 (ctorIlist natParams [0, 1, 2, 3, 4, 5, 6, 7]) 8
      (by decide) (Reachable.ctorIlist _) (by decide)⟩

/-- C15, as stated, fails: with `N = 7` and the keys `0, 1, 2, 3` in the set, `reserve(5)` has to
grow the seven-bucket table and produces `29 = 4 * 7 + 1` buckets, which is `7 * 4 ^ k` for no
`k`; inserting the fifth key gives `table_size == 29`, not `28`. -/
theorem reserve_not_times_four :
    Reachable natParams (ctorRange natParams [0, 1, 2, 3]) ∧
    (ctorRange natParams [0, 1, 2, 3]).table_size = 7 ∧
    (ctorRange natParams [0, 1, 2, 3]).current_size < 5 ∧
    natParams.fits (ctorRange natParams [0, 1, 2, 3]).table_size 5 = false ∧
    (reserve natParams (ctorRange natParams [0, 1, 2, 3]) 5).table_size = 29 ∧
    (∀ k, (reserve natParams (ctorRange natParams [0, 1, 2, 3]) 5).table_size
      ≠ (ctorRange natParams [0, 1, 2, 3]).table_size * 4 ^ k) ∧
    (insert natParams (ctorRange natParams [0, 1, 2, 3]) 4).1.table_size = 29 := by
  refine ⟨Reachable.ctorRange _, by decide, by decide, by decide, by decide, ?_, by decide⟩
  intro k
  have h1 : (reserve natParams (ctorRange natParams [0, 1, 2, 3]) 5).table_size = 29 := by decide
  have h2 : (ctorRange natParams [0, 1, 2, 3]).table_size = 7 := by decide
  rw [h1, h2]
  generalize 4 ^ k = x
  omega

/-- The quotient can exceed the grown size: the seven-bucket set built from the initializer list
`{0, ..., 21530759}` holds 21530760 keys; `reserve(21530761)` grows `7` to `30758229`, which
passes the load test, and `rehash` then takes `size_type(21530760 / 0.7f) = 30758230` buckets. -/
theorem reserve_exceeds_grown :
    (ctorIlist natParams (List.range 21530760)).table_size = 7 ∧
    (ctorIlist natParams (List.range 21530760)).current_size = 21530760 ∧
    growLoop natParams 21530761 (2 * 21530761) 7 = 30758229 ∧
    (reserve natParams (ctorIlist natParams (List.range 21530760)) 21530761).table_size
      = 30758230 := by
  have hN : 0 < natParams.N := by decide
  have h1 : (ctorIlist natParams (List.range 21530760)).table_size = 7 := by
    unfold ctorIlist insertIlist
    rw [foldl_add_table_size, ctor_eq]
    rfl
  have h2 : (ctorIlist natParams (List.range 21530760)).current_size = 21530760 := by
    have hi := ctorIlist_inv natParams hN (List.range 21530760)
    rw [← length_flatten_eq natParams hi]
    have hp : (ctorIlist natParams (List.range 21530760)).table.flatten.Perm
        (List.range 21530760) := by
      rw [List.perm_ext_iff_of_nodup (nodup_flatten natParams hi) (List.nodup_range _)]
      intro k
      rw [mem_flatten_iff natParams hi, count_ctorIlist natParams hN]
      by_cases h : k ∈ List.range 21530760
      · simp [h]
      · simp [h]
    rw [hp.length_eq, List.length_range]
  refine ⟨h1, h2, by decide, ?_⟩
  rw [reserve_table_size_eq, h1, h2]
  decide

/-- C15, amended: on a reachable state with table size `t`, `reserve(n)` changes nothing when the
load test of the source, `t * max_lf >= n` evaluated in binary32 with `max_lf = 0.7f`, passes.
Otherwise let `g` be obtained from `t` by applying `x ↦ 4 * x + 1` exactly `k` times, for the
smallest `k >= 1` whose result passes that test for `n`: the new table size is the larger of `g`
and `size_type(current_size / max_lf)`, hence `g` itself whenever that quotient is at most `g`
(it can be larger, see `reserve_exceeds_grown`). -/
theorem reserve_growth (hasher : Key → Nat) (N : Nat) (s : ADS_set Key) (n : Nat) (hN : 0 < N)
    (hs : Reachable (floatParams hasher N) s) :
    (fitsF32 s.table_size n = true → reserve (floatParams hasher N) s n = s) ∧
    (fitsF32 s.table_size n = false →
      ∃ k, 1 ≤ k ∧
        fitsF32 ((fun x => x * 4 + 1)^[k] s.table_size) n = true ∧
        (∀ j, j < k → fitsF32 ((fun x => x * 4 + 1)^[j] s.table_size) n = false) ∧
        (reserve (floatParams hasher N) s n).table_size
          = max ((fun x => x * 4 + 1)^[k] s.table_size) (quotF32 s.current_size) ∧
        (quotF32 s.current_size ≤ (fun x => x * 4 + 1)^[k] s.table_size →
          (reserve (floatParams hasher N) s n).table_size
            = (fun x => x * 4 + 1)^[k] s.table_size)) := by
  have hi := Reachable.inv _ hN hs
  constructor
  · intro hf
    have : (floatParams hasher N).fits s.table_size n = true := hf
    simp [reserve, this]
  · intro hf
    have hf2 : ¬ (floatParams hasher N).fits s.table_size n = true := by
      rw [float_fits, hf]
      decide
    obtain ⟨k, h1, h2, h3⟩ :=
      growLoop_iterate (floatParams hasher N) n (2 * n) s.table_size (by omega)
    have hts : (reserve (floatParams hasher N) s n).table_size
        = max ((fun x => x * 4 + 1)^[k] s.table_size) (quotF32 s.current_size) := by
      rw [reserve_table_size_eq, if_neg hf2, h1, float_quot]
      have hmin : (floatParams hasher N).N ≤ s.table_size := hi.min
      have hle := le_iterate_grow k s.table_size
      exact Nat.max_eq_right (le_trans (le_trans hmin hle) (Nat.le_max_left _ _))
    refine ⟨k, ?_, h2, h3, hts, fun hq => by rw [hts, Nat.max_eq_left hq]⟩
    cases k with
    | zero =>
      rw [float_fits] at h2
      rw [Function.iterate_zero, id] at h2
      rw [h2] at hf
      exact absurd hf (by decide)
    | succ k => omega

/-- Witness for C15: `reserve(5)` on the seven-bucket set holding `0, 1, 2, 3`. -/
theorem reserve_growth_witness :
    0 < 7 ∧ Reachable natParams (ctorRange natParams [0, 1, 2, 3]) ∧
    fitsF32 (ctorRange natParams [0, 1, 2, 3]).table_size 5 = false ∧
    ∃ k, 1 ≤ k ∧
      fitsF32 ((fun x => x * 4 + 1)^[k] (ctorRange natParams [0, 1, 2, 3]).table_size) 5
        = true ∧
      (∀ j, j < k →
        fitsF32 ((fun x => x * 4 + 1)^[j] (ctorRange natParams [0, 1, 2, 3]).table_size) 5
          = false) ∧
      (reserve natParams (ctorRange natParams [0, 1, 2, 3]) 5).table_size
        = max ((fun x => x * 4 + 1)^[k] (ctorRange natParams [0, 1, 2, 3]).table_size)
            (quotF32 (ctorRange natParams [0, 1, 2, 3]).current_size) ∧
      (quotF32 (ctorRange natParams [0, 1, 2, 3]).current_size
          ≤ (fun x => x * 4 + 1)^[k] (ctorRange natParams [0, 1, 2, 3]).table_size →
        (reserve natParams (ctorRange natParams [0, 1, 2, 3]) 5).table_size
          = (fun x => x * 4 + 1)^[k] (ctorRange natParams [0, 1, 2, 3]).table_size) :=
  ⟨by decide, Reachable.ctorRange _, by decide,
    (reserve_growth (fun k => k) 7 (ctorRange natParams [0, 1, 2, 3]) 5 (by decide)
      (Reachable.ctorRange _)).2 (by decide)⟩

/-- C16, as stated, fails: with `N = 7`, the set `0, ..., 1500003` built by single insertions is
well-formed and holds 1500004 keys; `rehash(0)` gives it 2142863 buckets, the value of
`size_type(1500004 / 0.7f)` in binary32, where `floor(1500004 / 0.7)` is 2142862. -/
theorem rehash_size_not_floor :
    (insertAll natParams (List.range 1500004)).table.length
      = (insertAll natParams (List.range 1500004)).table_size ∧
    (insertAll natParams (List.range 1500004)).table.flatten.Nodup ∧
    (∀ i k, k ∈ bucket (insertAll natParams (List.range 1500004)) i →
      natParams.hasher k % (insertAll natParams (List.range 1500004)).table_size = i) ∧
    (insertAll natParams (List.range 1500004)).current_size
      = (insertAll natParams (List.range 1500004)).table.flatten.length ∧
    (insertAll natParams (List.range 1500004)).current_size = 1500004 ∧
    (rehash natParams (insertAll natParams (List.range 1500004)) 0).table_size = 2142863 ∧
    max natParams.N (max 0 (10 * (insertAll natParams (List.range 1500004)).current_size / 7))
      = 2142862 := by
  have hN : 0 < natParams.N := by decide
  have hi := insertAll_inv natParams hN (List.range 1500004)
  have hsz := insertAll_range_size natParams hN 1500004
  refine ⟨hi.len, nodup_flatten natParams hi, fun i k hk => hi.home i k hk,
    (length_flatten_eq natParams hi).symm, hsz, ?_, ?_⟩
  · rw [rehash_table_size, hsz]
    decide
  · rw [hsz]
    decide

/-- C16, amended: on a well-formed object (the array has `table_size` buckets, no key occurs
twice, every key sits in the bucket `hasher(key) % table_size`, `current_size` counts the nodes),
`rehash(n)` yields a table of size `max(N, max(n, q))`, where `q` is
`size_type(current_size / max_lf)` evaluated in binary32 with `max_lf = 0.7f`, a number that
differs from `current_size / 0.7` by less than `1 + current_size * 2^-18 / 7`; the new table has
the same `count` for every key, the same `current_size`, no key twice, and every key in the
bucket given by its hash modulo the new table size. -/
theorem rehash_spec (hasher : Key → Nat) (N : Nat) (hN : 0 < N) (s : ADS_set Key) (n : Nat)
    (hlen : s.table.length = s.table_size) (hnodup : s.table.flatten.Nodup)
    (hhome : ∀ i k, k ∈ bucket s i → hasher k % s.table_size = i)
    (hcard : s.current_size = s.table.flatten.length) :
    (rehash (floatParams hasher N) s n).table_size = max N (max n (quotF32 s.current_size)) ∧
    7 * quotF32 s.current_size ≤ 10 * s.current_size + s.current_size / 2 ^ 18 ∧
    10 * s.current_size ≤ 7 * (quotF32 s.current_size + 1) + s.current_size / 2 ^ 18 ∧
    (rehash (floatParams hasher N) s n).table.length
      = (rehash (floatParams hasher N) s n).table_size ∧
    (∀ k, count (floatParams hasher N) (rehash (floatParams hasher N) s n) k
      = count (floatParams hasher N) s k) ∧
    (∀ k, k ∈ (rehash (floatParams hasher N) s n).table.flatten ↔ k ∈ s.table.flatten) ∧
    (rehash (floatParams hasher N) s n).current_size = s.current_size ∧
    (rehash (floatParams hasher N) s n).table.flatten.Nodup ∧
    (∀ i k, k ∈ bucket (rehash (floatParams hasher N) s n) i →
      hasher k % (rehash (floatParams hasher N) s n).table_size = i) := by
  obtain ⟨h1, h2, h3, h4, h5, h6, h7⟩ :=
    rehash_wellformed (floatParams hasher N) hN s n hlen hnodup hhome hcard
  exact ⟨h1, (quotF32_bounds s.current_size).1, (quotF32_bounds s.current_size).2,
    h2, h3, h4, h5, h6, h7⟩

/-- Witness for C16: `rehash(0)` on the seven-bucket set holding the eight keys `0, ..., 7`,
which gives `size_type(8 / 0.7f) = 11` buckets. -/
theorem rehash_spec_witness :
    0 < 7 ∧
    (ctorIlist natParams [0, 1, 2, 3, 4, 5, 6, 7]).table.length
      = (ctorIlist natParams [0, 1, 2, 3, 4, 5, 6, 7]).table_size ∧
    (ctorIlist natParams [0, 1, 2, 3, 4, 5, 6, 7]).table.flatten.Nodup ∧
    (ctorIlist natParams [0, 1, 2, 3, 4, 5, 6, 7]).current_size
      = (ctorIlist natParams [0, 1, 2, 3, 4, 5, 6, 7]).table.flatten.length ∧
    (rehash natParams (ctorIlist natParams [0, 1, 2, 3, 4, 5, 6, 7]) 0).table_size = 11 ∧
    (rehash natParams (ctorIlist natParams [0, 1, 2, 3, 4, 5, 6, 7]) 0).current_size = 8 ∧
    (∀ k, count natParams (rehash natParams (ctorIlist natParams [0, 1, 2, 3, 4, 5, 6, 7]) 0) k
      = count natParams (ctorIlist natParams [0, 1, 2, 3, 4, 5, 6, 7]) k) :=
  ⟨by decide, by decide, by decide, by decide,
    (rehash_spec (fun k => k) 7 (by decide) (ctorIlist natParams [0, 1, 2, 3, 4, 5, 6, 7]) 0
      (by decide) (by decide)
      (fun i k hk => (ctorIlist_inv natParams (by decide) [0, 1, 2, 3, 4, 5, 6, 7]).home i k hk)
      (by decide)).1.trans (by decide),
    (rehash_spec (fun k => k) 7 (by decide) (ctorIlist natParams [0, 1, 2, 3, 4, 5, 6, 7]) 0
      (by decide) (by decide)
      (fun i k hk => (ctorIlist_inv natParams (by decide) [0, 1, 2, 3, 4, 5, 6, 7]).home i k hk)
      (by decide)).2.2.2.2.2.2.1.trans (by decide),
    (rehash_spec (fun k => k) 7 (by decide) (ctorIlist natParams [0, 1, 2, 3, 4, 5, 6, 7]) 0
      (by decide) (by decide)
      (fun i k hk => (ctorIlist_inv natParams (by decide) [0, 1, 2, 3, 4, 5, 6, 7]).home i k hk)
      (by decide)).2.2.2.2.1⟩

/-- What the two answers of the binary64 shrink test say about the integers: `c < t * 0.2` up
to the factor `1 + 2^-50`. -/
theorem sparseF64_slack (c t : Nat) :
    (sparseF64 c t = true → 5 * c * 2 ^ 50 ≤ t * (2 ^ 50 + 1)) ∧
    (sparseF64 c t = false → t * 2 ^ 50 ≤ 5 * c * (2 ^ 50 + 1)) := by
  have b1 := roundBits_bounds 53 (by decide) c false
  have b2 := roundBits_bounds 53 (by decide) t false
  have b3 := roundBits_bounds 53 (by decide) (toDouble t * 7205759403792794 * 2) false
  simp only [sparseF64, toDouble, decide_eq_true_eq, decide_eq_false_iff_not] at *
  generalize roundBits 53 (roundBits 53 t false * 7205759403792794 * 2) false = r at *
  generalize roundBits 53 t false = b at *
  generalize roundBits 53 c false = a at *
  norm_num at b1 b2 b3 ⊢
  constructor <;> intro h <;> omega

/-- C17, as stated, fails: with `N = 7`, the set `0, ..., 1500004` built by single insertions has
7689557 buckets; `erase(0)` leaves `c = 1500004` keys, `c < 7689557 * 0.2`, and the shrink
rehash gives 2142863 buckets, the value of `size_type(c / 0.7f)` in binary32, where
`max(N, max(c, floor(c / 0.7)))` is 2142862. -/
theorem erase_size_not_floor :
    Reachable natParams (insertAll natParams (List.range 1500005)) ∧
    count natParams (insertAll natParams (List.range 1500005)) 0 = 1 ∧
    (insertAll natParams (List.range 1500005)).table_size = 7689557 ∧
    ∃ s1, erase natParams (insertAll natParams (List.range 1500005)) 0 = some (s1, 1) ∧
      s1.current_size = 1500004 ∧
      5 * s1.current_size < (insertAll natParams (List.range 1500005)).table_size ∧
      sparseF64 s1.current_size (insertAll natParams (List.range 1500005)).table_size = true ∧
      s1.table_size = 2142863 ∧
      max natParams.N (max s1.current_size (10 * s1.current_size / 7)) = 2142862 := by
  have hN : 0 < natParams.N := by decide
  have hi := insertAll_inv natParams hN (List.range 1500005)
  have hsz := insertAll_range_size natParams hN 1500005
  have hts := nat_table_large 1500005 (by decide) (by decide)
  have hk : count natParams (insertAll natParams (List.range 1500005)) 0 = 1 := by
    rw [count_insertAll natParams hN]
    simp
  obtain ⟨s1, he, hc, ht⟩ := erase_table_size_eq natParams hN hi hk
  rw [hsz] at hc
  rw [hsz, hts] at ht
  have ht2 : s1.table_size = 2142863 := by
    rw [ht]
    decide
  refine ⟨insertAll_reachable natParams _, hk, hts, s1, he, hc, ?_, ?_, ht2, ?_⟩
  · rw [hc, hts]
    decide
  · rw [hc, hts]
    decide
  · rw [hc]
    decide

/-- C17, amended: `erase(k)` of a contained key on a reachable set with table size `t` leaves
`c = current_size - 1` keys.  If the shrink test of the source, `c < t * 0.2` evaluated in
binary64, holds, the new table size is `max(N, max(c, q))` with `q = size_type(c / max_lf)`
evaluated in binary32 with `max_lf = 0.7f`; otherwise it is still `t`.  In both cases it is at
least `N` and at most `t`. -/
theorem erase_table_size (hasher : Key → Nat) (N : Nat) (s : ADS_set Key) (k : Key) (hN : 0 < N)
    (hs : Reachable (floatParams hasher N) s) (hk : count (floatParams hasher N) s k = 1) :
    ∃ s1, erase (floatParams hasher N) s k = some (s1, 1) ∧
      s1.current_size = s.current_size - 1 ∧
      (sparseF64 s1.current_size s.table_size = true →
        s1.table_size = max N (max s1.current_size (quotF32 s1.current_size)) ∧
        5 * s1.current_size * 2 ^ 50 ≤ s.table_size * (2 ^ 50 + 1)) ∧
      (sparseF64 s1.current_size s.table_size = false →
        s1.table_size = s.table_size ∧
        s.table_size * 2 ^ 50 ≤ 5 * s1.current_size * (2 ^ 50 + 1)) ∧
      N ≤ s1.table_size ∧ s1.table_size ≤ s.table_size := by
  have hi := Reachable.inv _ hN hs
  have hmin : N ≤ s.table_size := hi.min
  obtain ⟨s1, he, hc, ht⟩ := erase_table_size_eq (floatParams hasher N) hN hi hk
  rw [float_sparse, float_quot, ← hc] at ht
  refine ⟨s1, he, hc, ?_, ?_, ?_, ?_⟩
  · intro hsp
    rw [hsp, if_pos rfl] at ht
    exact ⟨ht, (sparseF64_slack _ _).1 hsp⟩
  · intro hsp
    rw [hsp] at ht
    exact ⟨ht, (sparseF64_slack _ _).2 hsp⟩
  · by_cases hsp : sparseF64 s1.current_size s.table_size = true
    · rw [hsp, if_pos rfl] at ht
      rw [ht]
      exact Nat.le_max_left _ _
    · rw [if_neg hsp] at ht
      rw [ht]
      exact hmin
  · by_cases hsp : sparseF64 s1.current_size s.table_size = true
    · have h4 := sparseF64_bound hsp
      have hq := (quotF32_bounds s1.current_size).1
      rw [hsp, if_pos rfl] at ht
      rw [ht]
      have hq2 : quotF32 s1.current_size ≤ s.table_size := by
        norm_num at hq
        omega
      exact Nat.max_le.2 ⟨hmin, Nat.max_le.2 ⟨by omega, hq2⟩⟩
    · rw [if_neg hsp] at ht
      rw [ht]

/-- Witness for C17: erasing `0` from the 29-bucket set holding `0, ..., 4`, which shrinks the
table to seven buckets. -/
theorem erase_table_size_witness :
    0 < 7 ∧ Reachable natParams (ctorRange natParams [0, 1, 2, 3, 4]) ∧
    count natParams (ctorRange natParams [0, 1, 2, 3, 4]) 0 = 1 ∧
    ∃ s1, erase natParams (ctorRange natParams [0, 1, 2, 3, 4]) 0 = some (s1, 1) ∧
      s1.current_size = (ctorRange natParams [0, 1, 2, 3, 4]).current_size - 1 ∧
      (sparseF64 s1.current_size (ctorRange natParams [0, 1, 2, 3, 4]).table_size = true →
        s1.table_size = max 7 (max s1.current_size (quotF32 s1.current_size)) ∧
        5 * s1.current_size * 2 ^ 50
          ≤ (ctorRange natParams [0, 1, 2, 3, 4]).table_size * (2 ^ 50 + 1)) ∧
      (sparseF64 s1.current_size (ctorRange natParams [0, 1, 2, 3, 4]).table_size = false →
        s1.table_size = (ctorRange natParams [0, 1, 2, 3, 4]).table_size ∧
        (ctorRange natParams [0, 1, 2, 3, 4]).table_size * 2 ^ 50
          ≤ 5 * s1.current_size * (2 ^ 50 + 1)) ∧
      7 ≤ s1.table_size ∧ s1.table_size ≤ (ctorRange natParams [0, 1, 2, 3, 4]).table_size :=
  ⟨by decide, Reachable.ctorRange _, by decide,
    erase_table_size (fun k => k) 7 (ctorRange natParams [0, 1, 2, 3, 4]) 0 (by decide)
      (Reachable.ctorRange _) (by decide)⟩

/-- The scaling used by `quotF32` is large enough: for `c >= 1` the scaled quotient has more than
24 bits, so the rounding in `quotF32` always drops at least one bit and the sticky part only
breaks ties, as `roundBits` requires. -/
theorem quotF32_scaled (c : Nat) (hc : 1 ≤ c) :
    2 ^ 24 ≤ toFloat c * 2 ^ 49 / 11744051 ∧
    0 < excess 24 (toFloat c * 2 ^ 49 / 11744051) (toFloat c * 2 ^ 49 / 11744051) := by
  have h1 : toFloat 1 ≤ toFloat c := toFloat_mono hc
  have h2 : toFloat 1 = 1 := by decide
  rw [h2] at h1
  have h3 : 2 ^ 24 ≤ toFloat c * 2 ^ 49 / 11744051 := by
    rw [Nat.le_div_iff_mul_le (by decide)]
    have : (1 : Nat) * 2 ^ 49 ≤ toFloat c * 2 ^ 49 := Nat.mul_le_mul_right _ h1
    norm_num at this ⊢
    omega
  refine ⟨h3, ?_⟩
  by_contra h0
  have hz : excess 24 (toFloat c * 2 ^ 49 / 11744051) (toFloat c * 2 ^ 49 / 11744051) = 0 := by
    omega
  have := (excess_spec 24 (by decide) _ _ (le_refl (toFloat c * 2 ^ 49 / 11744051))).1
  rw [hz] at this
  omega

end ADS
